import Mathlib

/-!
Verification development for `src/probabilistic_convergence.py` of the
`swarm_formation_sim` repository: a shallow embedding of the probabilistic
convergence round (decision-distribution evolution, subgroup detection,
sharpening) together with theorems settling the specification claims.

Modeling conventions:
* numpy float arithmetic is modeled over `ℚ`; division by zero yields the
  junk value `0` in `ℚ` where numpy would produce `inf`/`NaN` with a warning,
  and every claim touching a normalization either assumes the relevant sums
  are nonzero or is explicitly about the degenerate behaviour.
* `np.power(x, 0.3)` (line 311) has no exact `ℚ` counterpart; it is abstracted
  as a function parameter `powFn : ℚ → ℚ`, with the properties of `x ^ 0.3`
  that a claim needs (`powFn 0 = 0`, `0 ≤ powFn r ≤ 1` on `[0,1)`) taken as
  hypotheses and discharged at concrete choices in the witnesses.
* Python exceptions (`max([])` raising `ValueError` at line 301,
  `list.remove` raising `ValueError`, the `sys.exit` of the subgroup size
  check at line 266) are modeled as `none` of an `Option` result.
-/

namespace ProbConv

/-! ### Rows and elementary numpy operations -/

/-- `np.argmax` over a row: index of the first occurrence of the maximum.
Auxiliary fold carrying (remaining list, next index, best index, best value);
a later entry replaces the best only when strictly greater, matching numpy's
first-occurrence tie-breaking (used at lines 152 and 212). -/
def argmaxAux : List ℚ → ℕ → ℕ → ℚ → ℕ
  | [], _, best, _ => best
  | x :: t, idx, best, bv =>
    if bv < x then argmaxAux t (idx + 1) idx x else argmaxAux t (idx + 1) best bv

/-- `np.argmax(row)` (lines 152, 212): 0 on the empty row (numpy would raise,
but every use in the program is on a nonempty row). -/
def argmaxList : List ℚ → ℕ
  | [] => 0
  | x :: t => argmaxAux t 1 0 x

/-- Normalize a row by its own sum: `deci_dist[i] = deci_dist[i] / np.sum(deci_dist[i])`
(lines 148-150, 286-287, 332-333, 344-345). In `ℚ`, division by a zero sum
returns the junk value 0 (numpy: `NaN`). -/
def normalizeRow (r : List ℚ) : List ℚ := r.map (fun x => x / r.sum)

/-- L1 distance between rows: `np.sum(abs(a - b))` (line 300). -/
def l1dist (a b : List ℚ) : ℚ := (List.zipWith (fun x y => |x - y|) a b).sum

/-- Entrywise vector addition (lines 284, 342). -/
def vadd (a b : List ℚ) : List ℚ := List.zipWith (· + ·) a b

/-- Entrywise scaling (lines 281, 339, 342). -/
def vscale (c : ℚ) (a : List ℚ) : List ℚ := a.map (fun x => c * x)

/-- Python `max` over a list of values: `ValueError` on the empty list, modeled
as `none` (line 301 applies it to `dist_diff`). -/
def pyMax : List ℚ → Option ℚ
  | [] => none
  | x :: t => some (t.foldl max x)

/-- The connection list of node `i`: every `j` in `range(net_size)` with
`connections[i][j]` set (lines 95-100). -/
def connectionList (N : ℕ) (adj : ℕ → ℕ → Bool) (i : ℕ) : List ℕ :=
  (List.range N).filter (fun j => adj i j)

/-! ### The sharpening step (lines 288-333) -/

/-- Ordered pairs `(l[j], l[k])` with `j < k`, in the order produced by the
double loop of lines 296-299 over `comb_pool`. -/
def allPairs : List ℕ → List (ℕ × ℕ)
  | [] => []
  | x :: t => t.map (fun y => (x, y)) ++ allPairs t

/-- `dist_diff` (lines 295-300): the pairwise L1 distances over the clique
`comb_pool`, read from the current working array `deci_dist` — the code reads
`deci_dist[j_node]`/`deci_dist[k_node]` at line 300, not the snapshot
`deci_dist_t`. -/
def pairDiffs (dist : List (List ℚ)) (comb : List ℕ) : List ℚ :=
  (allPairs comb).map (fun p => l1dist (dist.getD p.1 []) (dist.getD p.2 []))

/-- `dist_diff_thres = 0.3` (line 162). -/
def dist_diff_thres : ℚ := 3 / 10

/-- `dist_diff_power = 0.3` would appear here (line 172); the power map itself
is abstracted as `powFn`. One compare-and-swap pass of the bubble sort
(lines 317-326): `n` compares of adjacent positions from the front.
`dist_temp` and `sort_index` are swapped in lockstep by the code, modeled
as a single list of `(value, index)` pairs. -/
def bubblePass : ℕ → List (ℚ × ℕ) → List (ℚ × ℕ)
  | 0, l => l
  | _ + 1, [] => []
  | _ + 1, [a] => [a]
  | n + 1, a :: b :: t =>
    if b.1 < a.1 then b :: bubblePass n (a :: t) else a :: bubblePass n (b :: t)

/-- The full bubble sort (lines 313-326), ascending by value: pass `j` performs
`deci_num - 1 - j` adjacent compares. `sort_index` starts as `range(deci_num)`
(line 315), so the input is `row.zip (List.range D)`. -/
def bubbleSort (D : ℕ) (l : List (ℚ × ℕ)) : List (ℚ × ℕ) :=
  (List.range (D - 1)).foldl (fun acc j => bubblePass (D - 1 - j) acc) l

/-- The linear multiplier for sorted rank `j` (line 329):
`small_end + float(j)/(deci_num-1) * (large_end-small_end)`. -/
def multiplier (D : ℕ) (small_end large_end : ℚ) (j : ℕ) : ℚ :=
  small_end + (j : ℚ) / ((D : ℚ) - 1) * (large_end - small_end)

/-- `small_end = 1.0/deci_num * np.power(dist_diff_ratio, dist_diff_power)`
(lines 305, 311), with `dist_diff_ratio = dist_diff_max / dist_diff_thres`. -/
def smallEndOf (powFn : ℚ → ℚ) (D : ℕ) (dist_diff_max : ℚ) : ℚ :=
  1 / (D : ℚ) * powFn (dist_diff_max / dist_diff_thres)

/-- `large_end = 2.0/deci_num - small_end` (line 312). -/
def largeEndOf (powFn : ℚ → ℚ) (D : ℕ) (dist_diff_max : ℚ) : ℚ :=
  2 / (D : ℚ) - smallEndOf powFn D dist_diff_max

/-- The `sort_index` array after the bubble sort (lines 313-326): the decision
indices of the row in ascending order of probability. -/
def sortIndexOf (D : ℕ) (row : List ℚ) : List ℕ :=
  (bubbleSort D (row.zip (List.range D))).map Prod.snd

/-- In-place application of the linear multiplier (lines 327-330): the entry of
sorted rank `j` is multiplied by `multiplier j`. -/
def multRow (powFn : ℚ → ℚ) (D : ℕ) (dist_diff_max : ℚ) (row : List ℚ) : List ℚ :=
  (List.range D).foldl
    (fun acc j =>
      acc.set ((sortIndexOf D row).getD j 0)
        (acc.getD ((sortIndexOf D row).getD j 0) 0 *
          multiplier D (smallEndOf powFn D dist_diff_max) (largeEndOf powFn D dist_diff_max) j))
    row

/-- The sharpening step (lines 302-333), applied to the post-averaging row when
`dist_diff_max < dist_diff_thres`: build the linear multiplier from
`small_end = 1/deci_num * np.power(ratio, 0.3)` and
`large_end = 2/deci_num - small_end`, multiply the entry of sorted rank `j`
by `multiplier j` in place, then renormalize. -/
def sharpenRow (powFn : ℚ → ℚ) (D : ℕ) (dist_diff_max : ℚ) (row : List ℚ) : List ℚ :=
  normalizeRow (multRow powFn D dist_diff_max row)

/-! ### The per-node update (lines 270-345) -/

/-- The `converged` flag of node `i` (lines 271-276): every neighbor's dominant
decision equals the host's. -/
def convergedAt (deci_domi : ℕ → ℕ) (nbrs : List ℕ) (i : ℕ) : Bool :=
  nbrs.all (fun n => deci_domi n == deci_domi i)

/-- Equal-weight averaging of the converged branch (lines 281-287): start from
`deci_dist_t[i]*1.0`, accumulate each neighbor's snapshot row, normalize. -/
def avgRow (distT : List (List ℚ)) (nbrs : List ℕ) (i : ℕ) : List ℚ :=
  normalizeRow (nbrs.foldl (fun acc n => vadd acc (distT.getD n [])) (vscale 1 (distT.getD i [])))

/-- Subgroup-size weighted averaging of the divergent branch (lines 339-345). -/
def wavgRow (distT : List (List ℚ)) (subsizes : ℕ → ℕ) (nbrs : List ℕ) (i : ℕ) : List ℚ :=
  normalizeRow (nbrs.foldl (fun acc n => vadd acc (vscale (subsizes n) (distT.getD n [])))
    (vscale (subsizes i) (distT.getD i [])))

/-- The per-node update (lines 270-345) acting on the working array `dist`
(`deci_dist`), with snapshot `distT` (`deci_dist_t`, line 269). On the
converged branch the averaged row is written into the working array first
(lines 281-287) and the pairwise distances are then computed from that working
array (line 300). `none` models the `ValueError` of `max([])` at line 301,
which is reached exactly when the clique has a single member. -/
def nodeUpdate (powFn : ℚ → ℚ) (D : ℕ) (deci_domi : ℕ → ℕ) (nbrsOf : ℕ → List ℕ)
    (subsizes : ℕ → ℕ) (distT dist : List (List ℚ)) (i : ℕ) : Option (List (List ℚ)) :=
  let nbrs := nbrsOf i
  if convergedAt deci_domi nbrs i then
    let dist1 := dist.set i (avgRow distT nbrs i)
    match pyMax (pairDiffs dist1 (i :: nbrs)) with
    | none => none
    | some dist_diff_max =>
      if dist_diff_max < dist_diff_thres then
        some (dist1.set i (sharpenRow powFn D dist_diff_max (dist1.getD i [])))
      else some dist1
  else some (dist.set i (wavgRow distT subsizes nbrs i))

/-! ### Subgroup detection (lines 215-266) -/

/-- Appending new potential members (lines 241-247): each neighbor of the newly
accepted member is appended to `p_members` when not already in `p_members`
(including the appends made earlier in the same loop), not in the current
subgroup, and still in the node pool. -/
def appendMembers (pool sub : List ℕ) (pm cands : List ℕ) : List ℕ :=
  cands.foldl (fun acc x => if x ∉ acc ∧ x ∉ sub ∧ x ∈ pool then acc ++ [x] else acc) pm

/-- The member search for one subgroup (the inner while loop, lines 232-251),
fuel-indexed to keep the recursion structural. State: current subgroup
`sub` (`subgroup_temp`), global pool `pool` (`n_pool`), potential members `pm`
(`p_members`), scan position `pIdx` (`p_index`). A match removes the member
from `p_members` and `n_pool` (a `list.remove` on a pool that does not hold
the member would raise `ValueError`, modeled as `none`; it is proved below
never to happen on well-formed inputs, as is fuel sufficiency). -/
def searchSub (deci_domi : ℕ → ℕ) (nbrsOf : ℕ → List ℕ) (current_domi : ℕ) :
    ℕ → List ℕ → List ℕ → List ℕ → ℕ → Option (List ℕ × List ℕ)
  | 0, _, _, _, _ => none
  | fuel + 1, sub, pool, pm, pIdx =>
    if h : pIdx < pm.length then
      let m := pm.get ⟨pIdx, h⟩
      if deci_domi m = current_domi then
        if m ∈ pool then
          let pm' := pm.erase m
          let pool' := pool.erase m
          let sub' := sub ++ [m]
          searchSub deci_domi nbrsOf current_domi fuel sub' pool'
            (appendMembers pool' sub' pm' (nbrsOf m)) pIdx
        else none
      else searchSub deci_domi nbrsOf current_domi fuel sub pool pm (pIdx + 1)
    else some (sub, pool)

/-- Fuel that is proved sufficient for `searchSub` below. -/
def innerFuel (pool pm : List ℕ) : ℕ :=
  pool.length * pool.length + pool.length + pm.length + 1

/-- The outer subgroup loop (lines 219-254), fuel-indexed: while the pool is
nonempty, pop its first node, search its subgroup, continue on the shrunken
pool. -/
def subgroupsAux (deci_domi : ℕ → ℕ) (nbrsOf : ℕ → List ℕ) :
    ℕ → List ℕ → Option (List (List ℕ))
  | _, [] => some []
  | 0, _ :: _ => none
  | fuel + 1, first :: rest =>
    match searchSub deci_domi nbrsOf (deci_domi first)
        (innerFuel rest (nbrsOf first)) [first] rest (nbrsOf first) 0 with
    | none => none
    | some (sub, pool') =>
      match subgroupsAux deci_domi nbrsOf fuel pool' with
      | none => none
      | some subs => some (sub :: subs)

/-- `subgroups` of one round (lines 215-254): the pool starts as
`range(net_size)`. -/
def findSubgroups (N : ℕ) (adj : ℕ → ℕ → Bool) (deci_domi : ℕ → ℕ) :
    Option (List (List ℕ)) :=
  subgroupsAux deci_domi (connectionList N adj) (N + 1) (List.range N)

/-- One edge of the same-decision induced subgraph: an adjacency whose two
endpoints carry the same dominant decision. The subgroups of the algorithm
are the connected components of this subgraph (proved below). -/
def sameDeciAdj (adj : ℕ → ℕ → Bool) (deci_domi : ℕ → ℕ) (a b : ℕ) : Prop :=
  adj a b = true ∧ deci_domi a = deci_domi b

/-- `subsizes` (lines 259-262): the size of the subgroup containing `i`
(0, the initialization value of line 155, if none contains it). -/
def subsizeOf (subs : List (List ℕ)) (i : ℕ) : ℕ :=
  match subs.find? (fun S => S.contains i) with
  | some S => S.length
  | none => 0

/-- The check traversal of lines 257-266: remove every subgroup member once from
`range(net_size)`; a missing member (`list.remove` raising `ValueError`) is
modeled as `none`. -/
def removeAll : List ℕ → List ℕ → Option (List ℕ)
  | cur, [] => some cur
  | cur, m :: t => if m ∈ cur then removeAll (cur.erase m) t else none

/-- Lines 257-266 pass exactly when each node is removed once and nothing is
left over (otherwise the program dies via `ValueError` or `sys.exit`). -/
def traverseCheck (N : ℕ) (subs : List (List ℕ)) : Bool :=
  removeAll (List.range N) subs.flatten == some []

/-! ### One round of the simulation loop (lines 211-345) -/

/-- One round of the evolution with an explicit processing order for the
per-node loop (the program processes `range(net_size)`, line 270).
`deci_domi` (line 212), the subgroups (lines 215-254) and `subsizes`
(lines 256-266) are computed from the round-start state; the snapshot
`deci_dist_t` is taken (line 269) and the per-node updates fold over the
working array, which starts as the round-start state itself. -/
def roundUpdateOrder (powFn : ℚ → ℚ) (N D : ℕ) (adj : ℕ → ℕ → Bool)
    (order : List ℕ) (deci_dist : List (List ℚ)) : Option (List (List ℚ)) :=
  let deci_domi := fun i => argmaxList (deci_dist.getD i [])
  let nbrsOf := connectionList N adj
  match findSubgroups N adj deci_domi with
  | none => none
  | some subs =>
    if traverseCheck N subs then
      order.foldlM
        (fun cur i => nodeUpdate powFn D deci_domi nbrsOf (subsizeOf subs) deci_dist cur i)
        deci_dist
    else none

/-- One round as the program performs it: nodes processed in index order. -/
def roundUpdate (powFn : ℚ → ℚ) (N D : ℕ) (adj : ℕ → ℕ → Bool)
    (deci_dist : List (List ℚ)) : Option (List (List ℚ)) :=
  roundUpdateOrder powFn N D adj (List.range N) deci_dist

/-- Initial normalization of the random distribution matrix (lines 146-150):
each row is divided by its own sum, unconditionally. -/
def initNormalize (m : List (List ℚ)) : List (List ℚ) := m.map normalizeRow

/-! ### Snapshot variant, following the spec's words (for claim C1)

The spec (section 4.3, step 2) states that the pairwise distances of the
sharpening test are computed "using snapshot values" and that "all reads in
both branches are against the immutable round snapshot". The following
variant differs from `nodeUpdate` in exactly that one read: `pairDiffs` is
applied to the snapshot `distT` instead of the working array. -/

/-- Per-node update as the spec words it: the sharpening test's pairwise
distances read the round-start snapshot. -/
def nodeUpdateSnapshot (powFn : ℚ → ℚ) (D : ℕ) (deci_domi : ℕ → ℕ) (nbrsOf : ℕ → List ℕ)
    (subsizes : ℕ → ℕ) (distT dist : List (List ℚ)) (i : ℕ) : Option (List (List ℚ)) :=
  let nbrs := nbrsOf i
  if convergedAt deci_domi nbrs i then
    let dist1 := dist.set i (avgRow distT nbrs i)
    match pyMax (pairDiffs distT (i :: nbrs)) with
    | none => none
    | some dist_diff_max =>
      if dist_diff_max < dist_diff_thres then
        some (dist1.set i (sharpenRow powFn D dist_diff_max (dist1.getD i [])))
      else some dist1
  else some (dist.set i (wavgRow distT subsizes nbrs i))

/-- One round under the spec's snapshot reading. -/
def roundUpdateSnapshot (powFn : ℚ → ℚ) (N D : ℕ) (adj : ℕ → ℕ → Bool)
    (deci_dist : List (List ℚ)) : Option (List (List ℚ)) :=
  let deci_domi := fun i => argmaxList (deci_dist.getD i [])
  let nbrsOf := connectionList N adj
  match findSubgroups N adj deci_domi with
  | none => none
  | some subs =>
    if traverseCheck N subs then
      (List.range N).foldlM
        (fun cur i =>
          nodeUpdateSnapshot powFn D deci_domi nbrsOf (subsizeOf subs) deci_dist cur i)
        deci_dist
    else none

/-! ### Concrete instances used in counterexamples and witnesses -/

/-- Two nodes, one edge (a 2-node network). -/
def twoNodeAdj : ℕ → ℕ → Bool := fun a b => (a == 0 && b == 1) || (a == 1 && b == 0)

/-- A 3-node path `0 - 1 - 2` (node 1 adjacent to both ends). -/
def pathAdj3 : ℕ → ℕ → Bool := fun a b =>
  (a == 0 && b == 1) || (a == 1 && b == 0) || (a == 1 && b == 2) || (a == 2 && b == 1)

/-- The empty adjacency (all nodes isolated). -/
def emptyAdj : ℕ → ℕ → Bool := fun _ _ => false

/-- Concrete distributions for the snapshot/order counterexample: both nodes of
the 2-node network agree on decision 0 but their rows are far apart
(L1 distance 4/5, above the threshold 3/10). -/
def exDistA : List (List ℚ) := [[19/20, 1/20], [11/20, 9/20]]

/-- Concrete distributions with an exact tie inside each row. -/
def exDistTie : List (List ℚ) := [[1/2, 1/2], [1/2, 1/2]]

/-- Concrete distributions for the 3-node path: all dominant decisions are 0. -/
def pathDist : List (List ℚ) := [[1/2, 1/2], [3/4, 1/4], [1, 0]]

/-- Concrete distributions making node 0 divergent on the 2-node network
(dominant decisions 0 and 1). -/
def divDist : List (List ℚ) := [[1/2, 1/2], [0, 1]]

/-- A single-row distribution for the isolated-node scenario. -/
def isoDist : List (List ℚ) := [[3/5, 2/5]]

/-- A subgroup-size assignment with host size 3 and neighbor size 1, fed to the
per-node update exactly as the `subsizes` array is (line 342). -/
def exSubsizes : ℕ → ℕ := fun n => [3, 1].getD n 0

/-- A concrete labeling of the 3-node path: nodes 0 and 1 agree, node 2
differs. -/
def pathLabel3 : ℕ → ℕ := fun i => [0, 0, 1].getD i 0

/-! ## Helper lemmas: row arithmetic -/

theorem vadd_length (a b : List ℚ) : (vadd a b).length = min a.length b.length :=
  List.length_zipWith ..

theorem vadd_getD (a b : List ℚ) (h : a.length = b.length) (k : ℕ) :
    (vadd a b).getD k 0 = a.getD k 0 + b.getD k 0 := by
  induction a generalizing b k with
  | nil =>
    cases b with
    | nil => simp [vadd]
    | cons y ys => simp at h
  | cons x xs ih =>
    cases b with
    | nil => simp at h
    | cons y ys =>
      cases k with
      | zero => simp [vadd]
      | succ k => simpa [vadd] using ih ys (by simpa using h) k

theorem vadd_sum (a b : List ℚ) (h : a.length = b.length) :
    (vadd a b).sum = a.sum + b.sum := by
  induction a generalizing b with
  | nil =>
    cases b with
    | nil => simp [vadd]
    | cons y ys => simp at h
  | cons x xs ih =>
    cases b with
    | nil => simp at h
    | cons y ys =>
      have := ih ys (by simpa using h)
      simp [vadd] at this ⊢
      rw [this]; ring

theorem vscale_length (c : ℚ) (a : List ℚ) : (vscale c a).length = a.length :=
  List.length_map ..

theorem vscale_getD (c : ℚ) (a : List ℚ) (k : ℕ) :
    (vscale c a).getD k 0 = c * a.getD k 0 := by
  induction a generalizing k with
  | nil => simp [vscale]
  | cons x xs ih =>
    cases k with
    | zero => simp [vscale]
    | succ k => simpa [vscale] using ih k

theorem vscale_sum (c : ℚ) (a : List ℚ) : (vscale c a).sum = c * a.sum := by
  induction a with
  | nil => simp [vscale]
  | cons x xs ih => simp [vscale] at ih ⊢; rw [ih]; ring

theorem vscale_one (a : List ℚ) : vscale 1 a = a := by
  simp [vscale]

theorem map_div_getD (r : List ℚ) (s : ℚ) (k : ℕ) :
    (r.map (fun x => x / s)).getD k 0 = r.getD k 0 / s := by
  induction r generalizing k with
  | nil => simp
  | cons x xs ih =>
    cases k with
    | zero => simp
    | succ k => simpa using ih k

theorem map_div_sum (r : List ℚ) (s : ℚ) :
    (r.map (fun x => x / s)).sum = r.sum / s := by
  induction r with
  | nil => simp
  | cons x xs ih => simp [ih, add_div]

theorem normalizeRow_length (r : List ℚ) : (normalizeRow r).length = r.length :=
  List.length_map ..

theorem normalizeRow_getD (r : List ℚ) (k : ℕ) :
    (normalizeRow r).getD k 0 = r.getD k 0 / r.sum :=
  map_div_getD r r.sum k

theorem normalizeRow_sum (r : List ℚ) (h : r.sum ≠ 0) : (normalizeRow r).sum = 1 := by
  rw [normalizeRow, map_div_sum, div_self h]

/-- The accumulating fold shared by both averaging branches, for a generic
per-neighbor row `g`. -/
theorem foldl_vadd_length (g : ℕ → List ℚ) (nbrs : List ℕ) (acc : List ℚ)
    (hg : ∀ n ∈ nbrs, (g n).length = acc.length) :
    (nbrs.foldl (fun a n => vadd a (g n)) acc).length = acc.length := by
  induction nbrs generalizing acc with
  | nil => rfl
  | cons n t ih =>
    have hlen : (vadd acc (g n)).length = acc.length := by
      rw [vadd_length, hg n (by simp), min_self]
    rw [List.foldl_cons]
    rw [ih (vadd acc (g n)) (fun m hm => by rw [hlen]; exact hg m (by simp [hm]))]
    exact hlen

theorem foldl_vadd_getD (g : ℕ → List ℚ) (nbrs : List ℕ) (acc : List ℚ)
    (hg : ∀ n ∈ nbrs, (g n).length = acc.length) (k : ℕ) :
    (nbrs.foldl (fun a n => vadd a (g n)) acc).getD k 0 =
      acc.getD k 0 + (nbrs.map (fun n => (g n).getD k 0)).sum := by
  induction nbrs generalizing acc with
  | nil => simp
  | cons n t ih =>
    have hlen : (vadd acc (g n)).length = acc.length := by
      rw [vadd_length, hg n (by simp), min_self]
    rw [List.foldl_cons,
      ih (vadd acc (g n)) (fun m hm => by rw [hlen]; exact hg m (by simp [hm])),
      vadd_getD acc (g n) (hg n (by simp)).symm]
    simp [add_assoc]

theorem foldl_vadd_sum (g : ℕ → List ℚ) (nbrs : List ℕ) (acc : List ℚ)
    (hg : ∀ n ∈ nbrs, (g n).length = acc.length) :
    (nbrs.foldl (fun a n => vadd a (g n)) acc).sum =
      acc.sum + (nbrs.map (fun n => (g n).sum)).sum := by
  induction nbrs generalizing acc with
  | nil => simp
  | cons n t ih =>
    have hlen : (vadd acc (g n)).length = acc.length := by
      rw [vadd_length, hg n (by simp), min_self]
    rw [List.foldl_cons,
      ih (vadd acc (g n)) (fun m hm => by rw [hlen]; exact hg m (by simp [hm])),
      vadd_sum acc (g n) (hg n (by simp)).symm]
    simp [add_assoc]

/-! ## Averaging formulas -/

/-- Entrywise closed form of the equal-weight averaging of the converged branch. -/
theorem avgRow_formula (distT : List (List ℚ)) (nbrs : List ℕ) (i D : ℕ)
    (hhost : (distT.getD i []).length = D)
    (hn : ∀ n ∈ nbrs, (distT.getD n []).length = D) (k : ℕ) :
    (avgRow distT nbrs i).getD k 0 =
      ((distT.getD i []).getD k 0 + (nbrs.map (fun n => (distT.getD n []).getD k 0)).sum) /
        ((distT.getD i []).sum + (nbrs.map (fun n => (distT.getD n []).sum)).sum) := by
  have hacc : (vscale 1 (distT.getD i [])).length = D := by rw [vscale_length, hhost]
  have hg : ∀ n ∈ nbrs, (distT.getD n []).length = (vscale 1 (distT.getD i [])).length := by
    intro n hn'; rw [hacc]; exact hn n hn'
  rw [avgRow, normalizeRow_getD,
    foldl_vadd_getD (fun n => distT.getD n []) nbrs _ hg,
    foldl_vadd_sum (fun n => distT.getD n []) nbrs _ hg,
    vscale_one]

/-- Entrywise closed form of the subgroup-size weighted averaging of the
divergent branch. -/
theorem wavgRow_formula (distT : List (List ℚ)) (subsizes : ℕ → ℕ) (nbrs : List ℕ) (i D : ℕ)
    (hhost : (distT.getD i []).length = D)
    (hn : ∀ n ∈ nbrs, (distT.getD n []).length = D) (k : ℕ) :
    (wavgRow distT subsizes nbrs i).getD k 0 =
      ((subsizes i : ℚ) * (distT.getD i []).getD k 0 +
          (nbrs.map (fun n => (subsizes n : ℚ) * (distT.getD n []).getD k 0)).sum) /
        ((subsizes i : ℚ) * (distT.getD i []).sum +
          (nbrs.map (fun n => (subsizes n : ℚ) * (distT.getD n []).sum)).sum) := by
  have hacc : (vscale (subsizes i) (distT.getD i [])).length = D := by
    rw [vscale_length, hhost]
  have hg : ∀ n ∈ nbrs,
      (vscale (subsizes n) (distT.getD n [])).length
        = (vscale (subsizes i) (distT.getD i [])).length := by
    intro n hn'; rw [hacc, vscale_length]; exact hn n hn'
  rw [wavgRow, normalizeRow_getD,
    foldl_vadd_getD (fun n => vscale (subsizes n) (distT.getD n [])) nbrs _ hg,
    foldl_vadd_sum (fun n => vscale (subsizes n) (distT.getD n [])) nbrs _ hg,
    vscale_getD, vscale_sum]
  simp only [vscale_getD, vscale_sum]

theorem getD_set_self {α : Type} (l : List α) (i : ℕ) (a d : α) (h : i < l.length) :
    (l.set i a).getD i d = a := by
  induction l generalizing i with
  | nil => simp at h
  | cons x xs ih =>
    cases i with
    | zero => rfl
    | succ i => exact ih i (by simpa using h)

/-! ## Claim C7: equal-weight averaging of the converged branch -/

/-- Claim C7: for a converged node `i`, the averaging step produces the
equal-weight (weight 1) sum of the snapshot rows of `i` and its neighbors,
divided by the total of all entries; the per-node update writes exactly that
row (possibly sharpened afterwards) into position `i`. The 3-node-path
instance, with node 1's averaged row equal to the entrywise mean of the three
input rows, is in the witness. -/
theorem converged_average_is_normalized_sum (powFn : ℚ → ℚ) (D : ℕ) (deci_domi : ℕ → ℕ)
    (nbrsOf : ℕ → List ℕ) (subsizes : ℕ → ℕ) (distT dist : List (List ℚ)) (i : ℕ)
    (hconv : convergedAt deci_domi (nbrsOf i) i = true)
    (hi : i < dist.length)
    (hhost : (distT.getD i []).length = D)
    (hn : ∀ n ∈ nbrsOf i, (distT.getD n []).length = D) :
    (∀ res, nodeUpdate powFn D deci_domi nbrsOf subsizes distT dist i = some res →
      res.getD i [] = avgRow distT (nbrsOf i) i ∨
      ∃ dm, res.getD i [] = sharpenRow powFn D dm (avgRow distT (nbrsOf i) i)) ∧
    ∀ k, (avgRow distT (nbrsOf i) i).getD k 0 =
      ((distT.getD i []).getD k 0 + ((nbrsOf i).map (fun n => (distT.getD n []).getD k 0)).sum) /
        ((distT.getD i []).sum + ((nbrsOf i).map (fun n => (distT.getD n []).sum)).sum) := by
  constructor
  · intro res hres
    rw [nodeUpdate] at hres
    simp only [hconv, if_true] at hres
    rcases hmax : pyMax (pairDiffs (dist.set i (avgRow distT (nbrsOf i) i)) (i :: nbrsOf i)) with
      _ | dm
    · rw [hmax] at hres; exact absurd hres (by simp)
    · rw [hmax] at hres
      simp only [] at hres
      by_cases hlt : dm < dist_diff_thres
      · rw [if_pos hlt] at hres
        right
        refine ⟨dm, ?_⟩
        obtain rfl := Option.some_inj.mp hres
        rw [getD_set_self _ _ _ _ (by simpa using hi), getD_set_self _ _ _ _ hi]
      · rw [if_neg hlt] at hres
        left
        obtain rfl := Option.some_inj.mp hres
        rw [getD_set_self _ _ _ _ hi]
  · intro k
    exact avgRow_formula distT (nbrsOf i) i D hhost hn k

unseal Rat.add Rat.mul Rat.sub Rat.inv in
/-- Witness for C7 at the 3-node path 0-1-2 with matching dominant decisions:
node 1's averaged row is the entrywise mean of the three input rows. -/
theorem converged_average_is_normalized_sum_witness :
    (avgRow pathDist (connectionList 3 pathAdj3 1) 1).getD 0 0 = ((1/2 : ℚ) + 3/4 + 1) / 3 ∧
    (avgRow pathDist (connectionList 3 pathAdj3 1) 1).getD 1 0 = ((1/2 : ℚ) + 1/4 + 0) / 3 := by
  have h := converged_average_is_normalized_sum id 2
    (fun i => argmaxList (pathDist.getD i [])) (connectionList 3 pathAdj3)
    (fun _ => 1) pathDist pathDist 1
    (by decide) (by decide) (by decide) (by decide)
  exact ⟨by rw [h.2 0]; decide, by rw [h.2 1]; decide⟩

/-! ## Claim C6: subgroup-size weighted averaging of the divergent branch -/

/-- Claim C6: for a divergent node `i` the per-node update writes exactly the
normalization of the subgroup-size weighted sum of the snapshot rows of `i`
and its neighbors, and nothing else (in particular the sharpening step never
runs on this branch — the result does not involve `sharpenRow` or `powFn`).
The `3*host + 1*neighbor over 4` instance of the claim is in the witness. -/
theorem divergent_weighted_average (powFn : ℚ → ℚ) (D : ℕ) (deci_domi : ℕ → ℕ)
    (nbrsOf : ℕ → List ℕ) (subsizes : ℕ → ℕ) (distT dist : List (List ℚ)) (i : ℕ)
    (hdiv : convergedAt deci_domi (nbrsOf i) i = false)
    (hhost : (distT.getD i []).length = D)
    (hn : ∀ n ∈ nbrsOf i, (distT.getD n []).length = D) :
    nodeUpdate powFn D deci_domi nbrsOf subsizes distT dist i =
      some (dist.set i (wavgRow distT subsizes (nbrsOf i) i)) ∧
    ∀ k, (wavgRow distT subsizes (nbrsOf i) i).getD k 0 =
      ((subsizes i : ℚ) * (distT.getD i []).getD k 0 +
          ((nbrsOf i).map (fun n => (subsizes n : ℚ) * (distT.getD n []).getD k 0)).sum) /
        ((subsizes i : ℚ) * (distT.getD i []).sum +
          ((nbrsOf i).map (fun n => (subsizes n : ℚ) * (distT.getD n []).sum)).sum) := by
  constructor
  · rw [nodeUpdate]
    simp only [hdiv, if_false, Bool.false_eq_true]
  · intro k
    exact wavgRow_formula distT subsizes (nbrsOf i) i D hhost hn k

unseal Rat.add Rat.mul Rat.sub Rat.inv in
/-- Witness for C6: a divergent node with one neighbor, host weight 3 and
neighbor weight 1 in the `subsizes` array, yields `(3*host + 1*neighbor)/4`
entrywise, with no sharpening applied. -/
theorem divergent_weighted_average_witness :
    nodeUpdate id 2 (fun i => argmaxList (divDist.getD i [])) (connectionList 2 twoNodeAdj)
        exSubsizes divDist divDist 0 = some [[3/8, 5/8], [0, 1]] ∧
    (wavgRow divDist exSubsizes (connectionList 2 twoNodeAdj 0) 0).getD 0 0 =
      (3 * (1/2 : ℚ) + 1 * 0) / 4 ∧
    (wavgRow divDist exSubsizes (connectionList 2 twoNodeAdj 0) 0).getD 1 0 =
      (3 * (1/2 : ℚ) + 1 * 1) / 4 := by
  have h := divergent_weighted_average id 2 (fun i => argmaxList (divDist.getD i []))
    (connectionList 2 twoNodeAdj) exSubsizes divDist divDist 0
    (by decide) (by decide) (by decide)
  refine ⟨?_, by rw [h.2 0]; decide, by rw [h.2 1]; decide⟩
  rw [h.1]
  decide

/-! ## Claim C5: isolated nodes -/

/-- Claim C5 (amended): a node with no neighbors is vacuously classified as
converged and its equal-weight average is its own snapshot row renormalized
(unchanged when the row sums to 1); but the per-node update then *fails* — the
sharpening test takes `max` of an empty pairwise-difference list (line 301
raises `ValueError`) — so the round never produces a next distribution for an
isolated node. -/
theorem isolated_node_converged_but_errors (powFn : ℚ → ℚ) (D : ℕ) (deci_domi : ℕ → ℕ)
    (nbrsOf : ℕ → List ℕ) (subsizes : ℕ → ℕ) (distT dist : List (List ℚ)) (i : ℕ)
    (hiso : nbrsOf i = []) :
    convergedAt deci_domi (nbrsOf i) i = true ∧
    avgRow distT (nbrsOf i) i = normalizeRow (distT.getD i []) ∧
    nodeUpdate powFn D deci_domi nbrsOf subsizes distT dist i = none := by
  refine ⟨by rw [hiso]; rfl, ?_, ?_⟩
  · rw [hiso, avgRow, List.foldl_nil, vscale_one]
  · rw [nodeUpdate]
    simp only [hiso]
    rfl

unseal Rat.add Rat.mul Rat.sub Rat.inv in
/-- Witness for C5 (amended) at a single isolated node. -/
theorem isolated_node_converged_but_errors_witness :
    convergedAt (fun i => argmaxList (isoDist.getD i [])) (connectionList 1 emptyAdj 0) 0
        = true ∧
    avgRow isoDist (connectionList 1 emptyAdj 0) 0 = normalizeRow (isoDist.getD 0 []) ∧
    nodeUpdate id 2 (fun i => argmaxList (isoDist.getD i [])) (connectionList 1 emptyAdj)
        (fun _ => 1) isoDist isoDist 0 = none :=
  isolated_node_converged_but_errors id 2 (fun i => argmaxList (isoDist.getD i []))
    (connectionList 1 emptyAdj) (fun _ => 1) isoDist isoDist 0 (by decide)

unseal Rat.add Rat.mul Rat.sub Rat.inv in
/-- Counterexample to C5 as stated: for a network consisting of one isolated
node, the round's update does not leave the distribution unchanged — it
produces no next-round distribution at all (the program dies with a
`ValueError` at line 301). -/
theorem isolated_node_round_errors :
    roundUpdate id 1 2 emptyAdj isoDist = none ∧
    roundUpdate id 1 2 emptyAdj isoDist ≠ some isoDist := by
  refine ⟨by decide, by decide⟩

/-! ## Claim C9: zero row sums produce no error -/

/-- Claim C9 (amended): no error is raised on a zero row sum — the
normalization divides unconditionally (lines 148-150 and 286-287), producing
junk values silently (`NaN` in the float code; in the `ℚ` model, division by
zero returns 0), and the resulting row sums to 0, not 1. -/
theorem normalize_zero_sum_is_silent_junk (r : List ℚ) (h : r.sum = 0) :
    normalizeRow r = r.map (fun _ => 0) ∧ (normalizeRow r).sum = 0 := by
  constructor
  · rw [normalizeRow, h]
    simp
  · rw [normalizeRow, h]
    simp

unseal Rat.add Rat.mul Rat.sub Rat.inv in
/-- Witness for C9 (amended) on an all-zero row. -/
theorem normalize_zero_sum_is_silent_junk_witness :
    normalizeRow [0, 0] = ([0, 0] : List ℚ).map (fun _ => 0) ∧
    (normalizeRow [(0 : ℚ), 0]).sum = 0 :=
  normalize_zero_sum_is_silent_junk [0, 0] (by decide)

unseal Rat.add Rat.mul Rat.sub Rat.inv in
/-- Counterexample to C9 as stated: an all-zero initial row is passed through
the initial normalization unchanged (no `InvalidDistributionError` exists in
the program), and a whole round on all-zero rows completes with a `some`
result — not a reported per-round computation error — whose rows still sum
to 0. -/
theorem zero_rows_produce_no_error :
    initNormalize [[0, 0]] = [[0, 0]] ∧
    roundUpdate id 2 2 twoNodeAdj [[0, 0], [0, 0]] = some [[0, 0], [0, 0]] ∧
    (([0, 0] : List ℚ).sum = 0 ∧ (0 : ℚ) ≠ 1) := by
  refine ⟨by decide, by decide, by decide, by decide⟩

/-! ## Claim C1: the sharpening test reads the working array, not the snapshot -/

unseal Rat.add Rat.mul Rat.sub Rat.inv in
/-- Counterexample to C1 as stated: on the 2-node network with rows
`[19/20, 1/20]` and `[11/20, 9/20]` (both dominant on decision 0, snapshot L1
distance 4/5 ≥ 0.3), the program's round — whose `dist_diff` at line 300 reads
the partially updated `deci_dist` — differs from the round that computes the
pairwise distances from the immutable round-start snapshot: the code sharpens
node 1 against node 0's freshly averaged row (difference 0), the snapshot
version sharpens nobody. -/
theorem round_differs_from_snapshot_round :
    roundUpdate id 2 2 twoNodeAdj exDistA ≠ roundUpdateSnapshot id 2 2 twoNodeAdj exDistA := by
  decide

unseal Rat.add Rat.mul Rat.sub Rat.inv in
/-- Claim C1 (amended): because `diffMax` is computed from the current working
array (the host's entry already averaged, earlier-processed nodes already
updated), a node's next-round distribution is *not* independent of the order
of the per-node updates: processing the same round-start state in order
`[0, 1]` and in order `[1, 0]` gives different results. -/
theorem round_depends_on_update_order :
    roundUpdateOrder id 2 2 twoNodeAdj [0, 1] exDistA ≠
      roundUpdateOrder id 2 2 twoNodeAdj [1, 0] exDistA := by
  decide

/-! ## Helper lemmas: `getD`, `set`, `range` bookkeeping -/

theorem getD_set_ne {α : Type} (l : List α) (i k : ℕ) (a d : α) (h : k ≠ i) :
    (l.set i a).getD k d = l.getD k d := by
  induction l generalizing i k with
  | nil => simp
  | cons x xs ih =>
    cases i with
    | zero =>
      cases k with
      | zero => exact absurd rfl h
      | succ k => simp
    | succ i =>
      cases k with
      | zero => simp
      | succ k => simpa using ih i k (fun hk => h (by rw [hk]))

theorem sum_set (l : List ℚ) (i : ℕ) (a : ℚ) (h : i < l.length) :
    (l.set i a).sum = l.sum + a - l.getD i 0 := by
  induction l generalizing i with
  | nil => simp at h
  | cons x xs ih =>
    cases i with
    | zero => simp; ring
    | succ i =>
      have := ih i (by simpa using h)
      simp [this]; ring

theorem getD_mem {α : Type} (l : List α) (k : ℕ) (d : α) (h : k < l.length) :
    l.getD k d ∈ l := by
  induction l generalizing k with
  | nil => simp at h
  | cons x xs ih =>
    cases k with
    | zero => simp
    | succ k => exact List.mem_cons_of_mem x (ih k (by simpa using h))

theorem mem_getD {α : Type} (l : List α) (x : α) (d : α) (h : x ∈ l) :
    ∃ k, k < l.length ∧ l.getD k d = x := by
  induction l with
  | nil => simp at h
  | cons y ys ih =>
    rcases List.mem_cons.mp h with rfl | h'
    · exact ⟨0, by simp, rfl⟩
    · obtain ⟨k, hk, hx⟩ := ih h'
      exact ⟨k + 1, by simpa using hk, hx⟩

theorem map_getD_range_self {α : Type} (l : List α) (n : ℕ) (d : α) (h : l.length = n) :
    (List.range n).map (fun k => l.getD k d) = l := by
  induction l generalizing n with
  | nil => subst h; rfl
  | cons x xs ih =>
    subst h
    rw [List.length_cons, List.range_succ_eq_map, List.map_cons, List.map_map]
    simp only [List.getD_cons_zero, List.cons.injEq, true_and]
    rw [show ((fun k => (x :: xs).getD k d) ∘ Nat.succ) = (fun k => xs.getD k d) from rfl,
      ih xs.length rfl]

theorem nodup_getD_ne {α : Type} (l : List α) (d : α) (hnd : l.Nodup) (j1 j2 : ℕ)
    (h1 : j1 < l.length) (h2 : j2 < l.length) (hne : j1 ≠ j2) :
    l.getD j1 d ≠ l.getD j2 d := by
  induction l generalizing j1 j2 with
  | nil => simp at h1
  | cons x xs ih =>
    rcases List.nodup_cons.mp hnd with ⟨hx, hxs⟩
    cases j1 with
    | zero =>
      cases j2 with
      | zero => exact absurd rfl hne
      | succ j2 =>
        simp only [List.getD_cons_zero, List.getD_cons_succ]
        intro hEq
        exact hx (hEq ▸ getD_mem xs j2 d (by simpa using h2))
    | succ j1 =>
      cases j2 with
      | zero =>
        simp only [List.getD_cons_zero, List.getD_cons_succ]
        intro hEq
        exact hx (hEq ▸ getD_mem xs j1 d (by simpa using h1))
      | succ j2 =>
        simpa using ih hxs j1 j2 (by simpa using h1) (by simpa using h2)
          (fun hk => hne (by rw [hk]))

theorem sum_map_sub (js : List ℕ) (f g : ℕ → ℚ) :
    (js.map (fun j => f j - g j)).sum = (js.map f).sum - (js.map g).sum := by
  induction js with
  | nil => simp
  | cons j t ih => simp [ih]; ring

/-! ## Helper lemmas: the bubble sort of lines 313-326 -/

theorem bubblePass_perm (n : ℕ) (l : List (ℚ × ℕ)) : (bubblePass n l).Perm l := by
  induction n generalizing l with
  | zero => cases l with
    | nil => exact List.Perm.refl _
    | cons a t => exact List.Perm.refl _
  | succ n ih =>
    match l with
    | [] => exact List.Perm.refl _
    | [a] => exact List.Perm.refl _
    | a :: b :: t =>
      rw [bubblePass]
      by_cases hab : b.1 < a.1
      · rw [if_pos hab]
        exact ((ih (a :: t)).cons b).trans (List.Perm.swap a b t)
      · rw [if_neg hab]
        exact (ih (b :: t)).cons a

theorem bubblePass_length (n : ℕ) (l : List (ℚ × ℕ)) :
    (bubblePass n l).length = l.length :=
  (bubblePass_perm n l).length_eq

theorem bubblePass_drop (n : ℕ) (l : List (ℚ × ℕ)) :
    (bubblePass n l).drop (n + 1) = l.drop (n + 1) := by
  induction n generalizing l with
  | zero => rfl
  | succ n ih =>
    match l with
    | [] => rfl
    | [a] => rfl
    | a :: b :: t =>
      rw [bubblePass]
      by_cases hab : b.1 < a.1
      · rw [if_pos hab]
        show (bubblePass n (a :: t)).drop (n + 1) = (b :: t).drop (n + 1)
        rw [ih (a :: t)]
        rfl
      · rw [if_neg hab]
        show (bubblePass n (b :: t)).drop (n + 1) = (b :: t).drop (n + 1)
        exact ih (b :: t)

theorem bubblePass_getLast_max (n : ℕ) (l : List (ℚ × ℕ)) (hne : l ≠ [])
    (hlen : l.length ≤ n + 1) :
    ∃ a, (bubblePass n l).getLast? = some a ∧ ∀ x ∈ l, x.1 ≤ a.1 := by
  induction n generalizing l with
  | zero =>
    match l with
    | [] => exact absurd rfl hne
    | [a] => exact ⟨a, rfl, by simp⟩
    | a :: b :: t => simp at hlen
  | succ n ih =>
    match l with
    | [] => exact absurd rfl hne
    | [a] => exact ⟨a, rfl, by simp⟩
    | a :: b :: t =>
      rw [bubblePass]
      by_cases hab : b.1 < a.1
      · rw [if_pos hab]
        obtain ⟨m, hlast, hbound⟩ := ih (a :: t) (by simp) (by simpa using hlen)
        refine ⟨m, ?_, ?_⟩
        · rcases hR : bubblePass n (a :: t) with _ | ⟨y, t'⟩
          · have hp := bubblePass_perm n (a :: t)
            rw [hR] at hp
            exact absurd (List.nil_perm.mp hp) (by simp)
          · rw [hR] at hlast
            rw [List.getLast?_cons_cons, hlast]
        · intro x hx
          rcases List.mem_cons.mp hx with rfl | hx'
          · exact hbound x (by simp)
          · rcases List.mem_cons.mp hx' with rfl | hx''
            · exact le_trans (le_of_lt hab) (hbound a (by simp))
            · exact hbound x (by simp [hx''])
      · rw [if_neg hab]
        obtain ⟨m, hlast, hbound⟩ := ih (b :: t) (by simp) (by simpa using hlen)
        refine ⟨m, ?_, ?_⟩
        · rcases hR : bubblePass n (b :: t) with _ | ⟨y, t'⟩
          · have hp := bubblePass_perm n (b :: t)
            rw [hR] at hp
            exact absurd (List.nil_perm.mp hp) (by simp)
          · rw [hR] at hlast
            rw [List.getLast?_cons_cons, hlast]
        · intro x hx
          rcases List.mem_cons.mp hx with rfl | hx'
          · exact le_trans (not_lt.mp hab) (hbound b (by simp))
          · exact hbound x hx'

theorem getLast?_eq_head?_drop {α : Type} (l : List α) :
    l.getLast? = (l.drop (l.length - 1)).head? := by
  induction l with
  | nil => rfl
  | cons a t ih =>
    cases t with
    | nil => rfl
    | cons b t' =>
      rw [List.getLast?_cons_cons, ih]
      rfl

theorem getLast?_eq_of_drop_eq {α : Type} (x y : List α) (s : ℕ)
    (hlenx : x.length = y.length) (hs : s ≤ x.length - 1) (h : x.drop s = y.drop s) :
    x.getLast? = y.getLast? := by
  have hx : x.drop (x.length - 1) = (x.drop s).drop (x.length - 1 - s) := by
    rw [List.drop_drop]
    congr 1
    omega
  have hy : y.drop (y.length - 1) = (y.drop s).drop (y.length - 1 - s) := by
    rw [List.drop_drop]
    congr 1
    omega
  have h1 : x.length - 1 - s = y.length - 1 - s := by rw [hlenx]
  rw [getLast?_eq_head?_drop, getLast?_eq_head?_drop, hx, hy, h, h1]

theorem foldl_bubblePass_perm (D : ℕ) (js : List ℕ) (l : List (ℚ × ℕ)) :
    (js.foldl (fun acc j => bubblePass (D - 1 - j) acc) l).Perm l := by
  induction js generalizing l with
  | nil => exact List.Perm.refl _
  | cons j t ih =>
    exact (ih (bubblePass (D - 1 - j) l)).trans (bubblePass_perm _ l)

theorem foldl_bubblePass_getLast (D : ℕ) (js : List ℕ) (acc : List (ℚ × ℕ))
    (hD : 2 ≤ D) (hacc : acc.length = D) (hjs : ∀ j ∈ js, 1 ≤ j) :
    (js.foldl (fun acc j => bubblePass (D - 1 - j) acc) acc).getLast? = acc.getLast? := by
  induction js generalizing acc with
  | nil => rfl
  | cons j t ih =>
    have hj : 1 ≤ j := hjs j (by simp)
    have hlen : (bubblePass (D - 1 - j) acc).length = acc.length := bubblePass_length _ _
    rw [List.foldl_cons, ih (bubblePass (D - 1 - j) acc) (by rw [hlen, hacc])
      (fun j' hj' => hjs j' (by simp [hj']))]
    exact getLast?_eq_of_drop_eq _ _ (D - 1 - j + 1) (by rw [hlen])
      (by rw [hlen, hacc]; omega) (bubblePass_drop _ acc)

theorem bubbleSort_perm (D : ℕ) (l : List (ℚ × ℕ)) : (bubbleSort D l).Perm l :=
  foldl_bubblePass_perm D (List.range (D - 1)) l

/-- After the full bubble sort of a length-`D` list, the last element carries
the maximal value. -/
theorem bubbleSort_getLast_max (D : ℕ) (l : List (ℚ × ℕ)) (hl : l.length = D)
    (hD : 1 ≤ D) :
    ∃ a, (bubbleSort D l).getLast? = some a ∧ ∀ x ∈ l, x.1 ≤ a.1 := by
  rcases Nat.lt_or_ge D 2 with hD2 | hD2
  · have hD1 : D = 1 := by omega
    subst hD1
    match l, hl with
    | [a], _ =>
      exact ⟨a, rfl, by simp⟩
  · obtain ⟨k, hk⟩ : ∃ k, D - 1 = k + 1 := ⟨D - 2, by omega⟩
    rw [bubbleSort,
      show List.range (D - 1) = 0 :: (List.range k).map Nat.succ by
        rw [hk, List.range_succ_eq_map],
      List.foldl_cons]
    have hfirst : l.length ≤ (D - 1 - 0) + 1 := by rw [hl]; omega
    obtain ⟨a, hlast, hbound⟩ :=
      bubblePass_getLast_max (D - 1 - 0) l (by intro h; rw [h] at hl; simp at hl; omega) hfirst
    refine ⟨a, ?_, hbound⟩
    rw [foldl_bubblePass_getLast D _ _ hD2
      (by rw [bubblePass_length, hl]) (by intro j hj; simp at hj; omega)]
    exact hlast

/-! ## Helper lemmas: `sortIndexOf` and `multRow` -/

theorem getD_eq_getElem {α : Type} (l : List α) (k : ℕ) (d : α) (h : k < l.length) :
    l.getD k d = l[k] := by
  induction l generalizing k with
  | nil => simp at h
  | cons x xs ih =>
    cases k with
    | zero => rfl
    | succ k => exact ih k (by simpa using h)

theorem mem_zip_row (row : List ℚ) (D : ℕ) (p : ℚ × ℕ) (hlen : row.length = D)
    (h : p ∈ row.zip (List.range D)) : p.2 < D ∧ p.1 = row.getD p.2 0 := by
  obtain ⟨i, hi, hp⟩ := List.mem_iff_getElem.mp h
  have hiD : i < D := by
    have := hi
    rw [List.length_zip, List.length_range, hlen, min_self] at this
    exact this
  have hz := @List.getElem_zip _ _ row (List.range D) i hi
  rw [hz] at hp
  have h1 : p.1 = row[i] := (congrArg Prod.fst hp).symm
  have h2 : p.2 = i := by
    have := congrArg Prod.snd hp
    simp only [List.getElem_range] at this
    exact this.symm
  refine ⟨h2 ▸ hiD, ?_⟩
  rw [h1, h2, getD_eq_getElem row i 0 (by omega)]

theorem zip_range_length (row : List ℚ) (D : ℕ) (hlen : row.length = D) :
    (row.zip (List.range D)).length = D := by
  rw [List.length_zip, List.length_range, hlen, min_self]

theorem sortIndexOf_perm (D : ℕ) (row : List ℚ) (hlen : row.length = D) :
    (sortIndexOf D row).Perm (List.range D) := by
  have h1 := (bubbleSort_perm D (row.zip (List.range D))).map Prod.snd
  rw [List.map_snd_zip row (List.range D) (by rw [List.length_range, hlen])] at h1
  exact h1

theorem sortIndexOf_length (D : ℕ) (row : List ℚ) (hlen : row.length = D) :
    (sortIndexOf D row).length = D := by
  rw [(sortIndexOf_perm D row hlen).length_eq, List.length_range]

theorem sortIndexOf_nodup (D : ℕ) (row : List ℚ) (hlen : row.length = D) :
    (sortIndexOf D row).Nodup :=
  ((sortIndexOf_perm D row hlen).nodup_iff).mpr (List.nodup_range D)

theorem sortIndexOf_mem_lt (D : ℕ) (row : List ℚ) (hlen : row.length = D) :
    ∀ x ∈ sortIndexOf D row, x < D := by
  intro x hx
  have := (sortIndexOf_perm D row hlen).mem_iff.mp hx
  exact List.mem_range.mp this

/-- With a unique maximum at index `d`, the bubble sort puts `d` last in
`sort_index`. -/
theorem sortIndexOf_getLast (D : ℕ) (row : List ℚ) (hlen : row.length = D)
    (hD : 1 ≤ D) (d : ℕ) (hd : d < D)
    (hu : ∀ k, k < D → k ≠ d → row.getD k 0 < row.getD d 0) :
    (sortIndexOf D row).getD (D - 1) 0 = d := by
  obtain ⟨a, hlast, hbound⟩ :=
    bubbleSort_getLast_max D (row.zip (List.range D)) (zip_range_length row D hlen) hD
  have hmem : a ∈ row.zip (List.range D) := by
    have : a ∈ bubbleSort D (row.zip (List.range D)) :=
      List.mem_of_getLast?_eq_some hlast
    exact (bubbleSort_perm D _).mem_iff.mp this
  obtain ⟨ha2, ha1⟩ := mem_zip_row row D a hlen hmem
  have hdmem : (row.getD d 0, d) ∈ row.zip (List.range D) := by
    have hzl : d < (row.zip (List.range D)).length := by
      rw [zip_range_length row D hlen]; exact hd
    have hz := @List.getElem_zip _ _ row (List.range D) d hzl
    have : (row.zip (List.range D))[d] = (row.getD d 0, d) := by
      rw [hz]
      congr 1
      · rw [getD_eq_getElem row d 0 (by omega)]
      · simp
    rw [← this]
    exact List.getElem_mem hzl
  have hda : row.getD d 0 ≤ a.1 := hbound _ hdmem
  have ha2d : a.2 = d := by
    by_contra hne
    have := hu a.2 ha2 hne
    rw [← ha1] at this
    exact absurd hda (not_le.mpr this)
  -- the last entry of `sort_index` is the second component of the sorted last pair
  have hsl : (sortIndexOf D row).length = D := sortIndexOf_length D row hlen
  have hlast2 : (sortIndexOf D row).getLast? = some a.2 := by
    rw [sortIndexOf, List.getLast?_eq_getElem?, List.getElem?_map]
    rw [List.length_map]
    have hbl : (bubbleSort D (row.zip (List.range D))).length = D := by
      rw [(bubbleSort_perm D _).length_eq, zip_range_length row D hlen]
    rw [List.getLast?_eq_getElem?, hbl] at hlast
    rw [hbl, hlast]
    rfl
  rw [List.getLast?_eq_getElem?, hsl] at hlast2
  rw [List.getD_eq_getElem?_getD, hlast2]
  exact ha2d

/-- Characterization of the in-place multiplier fold: entry values, length and
total sum. Stated for a generic index list `si` and multiplier values, then
instantiated at `sortIndexOf`. -/
theorem multFold_spec (si : List ℕ) (p : List ℚ) (m : ℕ → ℚ) (hsind : si.Nodup)
    (hsiD : ∀ x ∈ si, x < p.length) :
    ∀ (js : List ℕ) (acc : List ℚ), acc.length = p.length → js.Nodup →
    (∀ j ∈ js, j < si.length) →
    (∀ j ∈ js, acc.getD (si.getD j 0) 0 = p.getD (si.getD j 0) 0) →
    (js.foldl (fun acc j => acc.set (si.getD j 0) (acc.getD (si.getD j 0) 0 * m j)) acc).length
        = acc.length ∧
    (∀ k, (∀ j ∈ js, si.getD j 0 ≠ k) →
      (js.foldl (fun acc j => acc.set (si.getD j 0) (acc.getD (si.getD j 0) 0 * m j)) acc).getD k 0
        = acc.getD k 0) ∧
    (∀ j ∈ js,
      (js.foldl (fun acc j => acc.set (si.getD j 0) (acc.getD (si.getD j 0) 0 * m j)) acc).getD
          (si.getD j 0) 0
        = p.getD (si.getD j 0) 0 * m j) ∧
    (js.foldl (fun acc j => acc.set (si.getD j 0) (acc.getD (si.getD j 0) 0 * m j)) acc).sum
      = acc.sum + (js.map (fun j => p.getD (si.getD j 0) 0 * m j - p.getD (si.getD j 0) 0)).sum
    := by
  intro js
  induction js with
  | nil => intro acc hacc _ _ _; exact ⟨rfl, fun k _ => rfl, by simp, by simp⟩
  | cons j0 t ih =>
    intro acc hacc hnd hlt huntouched
    have hj0si : j0 < si.length := hlt j0 (by simp)
    have hσ0 : si.getD j0 0 ∈ si := getD_mem si j0 0 hj0si
    have hσ0p : si.getD j0 0 < acc.length := by rw [hacc]; exact hsiD _ hσ0
    have hj0t : j0 ∉ t := (List.nodup_cons.mp hnd).1
    have hσne : ∀ j ∈ t, si.getD j 0 ≠ si.getD j0 0 := by
      intro j hj
      exact nodup_getD_ne si 0 hsind j j0 (hlt j (by simp [hj])) hj0si
        (fun hjj => hj0t (hjj ▸ hj))
    have hval : acc.getD (si.getD j0 0) 0 = p.getD (si.getD j0 0) 0 :=
      huntouched j0 (by simp)
    set acc' := acc.set (si.getD j0 0) (acc.getD (si.getD j0 0) 0 * m j0) with hacc'
    have hacc'len : acc'.length = p.length := by
      rw [hacc', List.length_set, hacc]
    have hunt' : ∀ j ∈ t, acc'.getD (si.getD j 0) 0 = p.getD (si.getD j 0) 0 := by
      intro j hj
      rw [hacc', getD_set_ne _ _ _ _ _ (hσne j hj)]
      exact huntouched j (by simp [hj])
    obtain ⟨ih_len, ih_b, ih_c, ih_d⟩ := ih acc' hacc'len (List.nodup_cons.mp hnd).2
      (fun j hj => hlt j (by simp [hj])) hunt'
    rw [List.foldl_cons]
    refine ⟨by rw [ih_len, hacc'len, hacc], ?_, ?_, ?_⟩
    · intro k hk
      rw [ih_b k (fun j hj => hk j (by simp [hj])), hacc',
        getD_set_ne _ _ _ _ _ (fun hkk => hk j0 (by simp) hkk.symm)]
    · intro j hj
      rcases List.mem_cons.mp hj with rfl | hj'
      · rw [ih_b (si.getD j 0) (fun j' hj' => hσne j' hj'), hacc',
          getD_set_self _ _ _ _ hσ0p, hval]
      · exact ih_c j hj'
    · rw [ih_d, hacc', sum_set acc _ _ hσ0p, hval]
      simp only [List.map_cons, List.sum_cons]
      ring

theorem multRow_length (powFn : ℚ → ℚ) (D : ℕ) (dmax : ℚ) (row : List ℚ)
    (hlen : row.length = D) : (multRow powFn D dmax row).length = D := by
  have h := (multFold_spec (sortIndexOf D row) row
    (multiplier D (smallEndOf powFn D dmax) (largeEndOf powFn D dmax))
    (sortIndexOf_nodup D row hlen)
    (fun x hx => by rw [hlen]; exact sortIndexOf_mem_lt D row hlen x hx)
    (List.range D) row rfl (List.nodup_range D)
    (fun j hj => by rw [sortIndexOf_length D row hlen]; exact List.mem_range.mp hj)
    (fun j _ => rfl)).1
  rw [multRow, h, hlen]

theorem multRow_getD (powFn : ℚ → ℚ) (D : ℕ) (dmax : ℚ) (row : List ℚ)
    (hlen : row.length = D) (j : ℕ) (hj : j < D) :
    (multRow powFn D dmax row).getD ((sortIndexOf D row).getD j 0) 0 =
      row.getD ((sortIndexOf D row).getD j 0) 0 *
        multiplier D (smallEndOf powFn D dmax) (largeEndOf powFn D dmax) j := by
  have h := (multFold_spec (sortIndexOf D row) row
    (multiplier D (smallEndOf powFn D dmax) (largeEndOf powFn D dmax))
    (sortIndexOf_nodup D row hlen)
    (fun x hx => by rw [hlen]; exact sortIndexOf_mem_lt D row hlen x hx)
    (List.range D) row rfl (List.nodup_range D)
    (fun j hj => by rw [sortIndexOf_length D row hlen]; exact List.mem_range.mp hj)
    (fun j _ => rfl)).2.2.1
  exact h j (List.mem_range.mpr hj)

theorem multRow_sum (powFn : ℚ → ℚ) (D : ℕ) (dmax : ℚ) (row : List ℚ)
    (hlen : row.length = D) :
    (multRow powFn D dmax row).sum =
      ((List.range D).map (fun j => row.getD ((sortIndexOf D row).getD j 0) 0 *
        multiplier D (smallEndOf powFn D dmax) (largeEndOf powFn D dmax) j)).sum := by
  have h := (multFold_spec (sortIndexOf D row) row
    (multiplier D (smallEndOf powFn D dmax) (largeEndOf powFn D dmax))
    (sortIndexOf_nodup D row hlen)
    (fun x hx => by rw [hlen]; exact sortIndexOf_mem_lt D row hlen x hx)
    (List.range D) row rfl (List.nodup_range D)
    (fun j hj => by rw [sortIndexOf_length D row hlen]; exact List.mem_range.mp hj)
    (fun j _ => rfl)).2.2.2
  rw [multRow, h, sum_map_sub]
  have hperm : ((List.range D).map (fun j => row.getD ((sortIndexOf D row).getD j 0) 0)).sum
      = row.sum := by
    have hmm : (List.range D).map (fun j => (sortIndexOf D row).getD j 0) = sortIndexOf D row :=
      map_getD_range_self (sortIndexOf D row) D 0 (sortIndexOf_length D row hlen)
    have hcomp : (List.range D).map (fun j => row.getD ((sortIndexOf D row).getD j 0) 0)
        = ((List.range D).map (fun j => (sortIndexOf D row).getD j 0)).map
            (fun x => row.getD x 0) := by
      rw [List.map_map]
      rfl
    rw [hcomp, hmm]
    have hps : ((sortIndexOf D row).map (fun x => row.getD x 0)).sum
        = ((List.range D).map (fun x => row.getD x 0)).sum :=
      ((sortIndexOf_perm D row hlen).map (fun x => row.getD x 0)).sum_eq
    rw [hps, map_getD_range_self row D 0 hlen]
  rw [hperm]
  ring

/-- Every position `k < D` of the row is reached by some sorted rank `j`. -/
theorem sortIndexOf_surj (D : ℕ) (row : List ℚ) (hlen : row.length = D) (k : ℕ)
    (hk : k < D) : ∃ j, j < D ∧ (sortIndexOf D row).getD j 0 = k := by
  have hkmem : k ∈ sortIndexOf D row :=
    (sortIndexOf_perm D row hlen).mem_iff.mpr (List.mem_range.mpr hk)
  obtain ⟨j, hj, hjk⟩ := mem_getD (sortIndexOf D row) k 0 hkmem
  exact ⟨j, by rw [← sortIndexOf_length D row hlen]; exact hj, hjk⟩

theorem getD_of_length_le {α : Type} (l : List α) (k : ℕ) (d : α) (h : l.length ≤ k) :
    l.getD k d = d := by
  induction l generalizing k with
  | nil => simp
  | cons x xs ih =>
    cases k with
    | zero => simp at h
    | succ k => exact ih k (by simpa using h)

theorem multiplier_rank_zero (D : ℕ) (s l : ℚ) : multiplier D s l 0 = s := by
  simp [multiplier]

/-! ## Claim C10: sharpening at `diffMax = 0` zeroes the smallest entry -/

/-- Claim C10: when the sharpening step runs with `diffMax` exactly 0, the
ratio is 0 and `smallEnd = (1/D) * powFn 0 = 0` (for the real power map,
`0^0.3 = 0`), so the lowest-ranked entry of the row is multiplied by exactly 0
and is exactly 0 after renormalization; every entry of the sharpened row stays
nonnegative, but strict positivity is not preserved. -/
theorem sharpen_zero_diffmax_kills_smallest (powFn : ℚ → ℚ) (D : ℕ) (row : List ℚ)
    (hD : 2 ≤ D) (hlen : row.length = D) (hpow : powFn 0 = 0)
    (hnn : ∀ k, 0 ≤ row.getD k 0) :
    smallEndOf powFn D 0 = 0 ∧
    (∀ k, 0 ≤ (sharpenRow powFn D 0 row).getD k 0) ∧
    (sortIndexOf D row).getD 0 0 < D ∧
    (sharpenRow powFn D 0 row).getD ((sortIndexOf D row).getD 0 0) 0 = 0 := by
  have hsmall : smallEndOf powFn D 0 = 0 := by
    rw [smallEndOf, zero_div, hpow, mul_zero]
  have hlarge : largeEndOf powFn D 0 = 2 / (D : ℚ) := by
    rw [largeEndOf, hsmall, sub_zero]
  have hmnn : ∀ j, 0 ≤ multiplier D (smallEndOf powFn D 0) (largeEndOf powFn D 0) j := by
    intro j
    rw [multiplier, hsmall, hlarge, sub_zero, zero_add]
    apply mul_nonneg
    · apply div_nonneg (by positivity)
      have : (1 : ℚ) ≤ (D : ℚ) := by exact_mod_cast Nat.one_le_iff_ne_zero.mpr (by omega)
      linarith
    · positivity
  have hvals : ∀ k, 0 ≤ (multRow powFn D 0 row).getD k 0 := by
    intro k
    rcases Nat.lt_or_ge k D with hk | hk
    · obtain ⟨j, hj, hjk⟩ := sortIndexOf_surj D row hlen k hk
      rw [← hjk, multRow_getD powFn D 0 row hlen j hj]
      exact mul_nonneg (hnn _) (hmnn j)
    · rw [getD_of_length_le _ _ _ (by rw [multRow_length powFn D 0 row hlen]; exact hk)]
  have hsumnn : 0 ≤ (multRow powFn D 0 row).sum := by
    apply List.sum_nonneg
    intro x hx
    obtain ⟨k, hk, hkx⟩ := mem_getD (multRow powFn D 0 row) x 0 hx
    rw [← hkx]
    exact hvals k
  have hσ0 : (sortIndexOf D row).getD 0 0 < D := by
    apply sortIndexOf_mem_lt D row hlen
    exact getD_mem _ 0 0 (by rw [sortIndexOf_length D row hlen]; omega)
  refine ⟨hsmall, ?_, hσ0, ?_⟩
  · intro k
    rw [sharpenRow, normalizeRow_getD]
    exact div_nonneg (hvals k) hsumnn
  · rw [sharpenRow, normalizeRow_getD,
      multRow_getD powFn D 0 row hlen 0 (by omega),
      multiplier_rank_zero, hsmall, mul_zero, zero_div]

unseal Rat.add Rat.mul Rat.sub Rat.inv in
/-- Witness for C10 at `D = 2`, row `[3/4, 1/4]`, `powFn = id`: the sharpened
row is `[1, 0]` — nonnegative, with the smallest-ranked entry (index 1)
exactly 0. -/
theorem sharpen_zero_diffmax_kills_smallest_witness :
    smallEndOf id 2 0 = 0 ∧
    (sortIndexOf 2 [3/4, (1/4 : ℚ)]).getD 0 0 < 2 ∧
    (sharpenRow id 2 0 [3/4, (1/4 : ℚ)]).getD ((sortIndexOf 2 [3/4, (1/4 : ℚ)]).getD 0 0) 0
      = 0 ∧
    0 ≤ (sharpenRow id 2 0 [3/4, (1/4 : ℚ)]).getD 0 0 := by
  have h := sharpen_zero_diffmax_kills_smallest id 2 [3/4, (1/4 : ℚ)] (by omega) (by decide)
    (by decide)
    (by
      intro k
      match k with
      | 0 => decide
      | 1 => decide
      | n + 2 => simp)
  exact ⟨h.1, h.2.2.1, h.2.2.2, h.2.1 0⟩

/-- Summing a function of the row entries over sorted ranks equals summing it
over positions. -/
theorem sortIndexOf_sum_comp (D : ℕ) (row : List ℚ) (hlen : row.length = D) :
    ((List.range D).map (fun j => row.getD ((sortIndexOf D row).getD j 0) 0)).sum
      = row.sum := by
  have hmm : (List.range D).map (fun j => (sortIndexOf D row).getD j 0) = sortIndexOf D row :=
    map_getD_range_self (sortIndexOf D row) D 0 (sortIndexOf_length D row hlen)
  have hcomp : (List.range D).map (fun j => row.getD ((sortIndexOf D row).getD j 0) 0)
      = ((List.range D).map (fun j => (sortIndexOf D row).getD j 0)).map
          (fun x => row.getD x 0) := by
    rw [List.map_map]
    rfl
  rw [hcomp, hmm, ((sortIndexOf_perm D row hlen).map (fun x => row.getD x 0)).sum_eq,
    map_getD_range_self row D 0 hlen]

/-! ## Claim C4: sharpening and the dominant entry -/

unseal Rat.add Rat.mul Rat.sub Rat.inv in
/-- Counterexample to C4 as stated: with an exact tie `[1/2, 1/2]` (dominant
decision `argmax = 0`) and `diffMax = 0`, the sharpened probability of the
dominant decision strictly *decreases*, from `1/2` to `0` — the stable bubble
sort leaves the first-indexed of the tied maxima in the low-multiplier rank.
This situation arises in a real round: on the 2-node network where both rows
are `[1/2, 1/2]`, the round sharpens node 0 exactly like this. -/
theorem sharpen_tie_decreases_dominant :
    argmaxList [1/2, (1/2 : ℚ)] = 0 ∧
    sharpenRow id 2 0 [1/2, (1/2 : ℚ)] = [0, 1] ∧
    (sharpenRow id 2 0 [1/2, (1/2 : ℚ)]).getD 0 0 < (1/2 : ℚ) ∧
    roundUpdate id 2 2 twoNodeAdj exDistTie = some [[0, 1], [1/2, 1/2]] := by
  refine ⟨by decide, by decide, by decide, by decide⟩

/-- Claim C4 (amended): when the sharpening step is applied with
`ratio = diffMax/threshold` mapped by the power function into `[0, 1)` (true
of `x ^ 0.3` whenever `diffMax < threshold`), and the node's pre-sharpening
dominant decision `d` (the `argmax` of the post-averaging row) is a *unique*
maximum, and at least one other entry is positive, then the assigned
probability of `d` strictly increases. (The counterexample shows the claim
fails without the uniqueness proviso.) -/
theorem sharpen_strictly_increases_dominant (powFn : ℚ → ℚ) (D : ℕ) (dmax : ℚ)
    (row : List ℚ) (hD : 2 ≤ D) (hlen : row.length = D)
    (hnn : ∀ k, 0 ≤ row.getD k 0) (hsum : row.sum = 1)
    (d : ℕ) (hd : d < D) (hdom : argmaxList row = d)
    (hu : ∀ k, k < D → k ≠ d → row.getD k 0 < row.getD d 0)
    (hother : ∃ k, k < D ∧ k ≠ d ∧ 0 < row.getD k 0)
    (hp0 : 0 ≤ powFn (dmax / dist_diff_thres))
    (hp1 : powFn (dmax / dist_diff_thres) < 1) :
    row.getD d 0 < (sharpenRow powFn D dmax row).getD d 0 := by
  have hDQ : (2 : ℚ) ≤ (D : ℚ) := by exact_mod_cast hD
  have hD0 : (0 : ℚ) < (D : ℚ) := by linarith
  have hD1 : (0 : ℚ) < (D : ℚ) - 1 := by linarith
  have hs0 : 0 ≤ smallEndOf powFn D dmax := by
    rw [smallEndOf]
    exact mul_nonneg (by positivity) hp0
  have hsD : smallEndOf powFn D dmax < 1 / (D : ℚ) := by
    rw [smallEndOf]
    calc 1 / (D : ℚ) * powFn (dmax / dist_diff_thres) < 1 / (D : ℚ) * 1 :=
          mul_lt_mul_of_pos_left hp1 (by positivity)
      _ = 1 / (D : ℚ) := mul_one _
  have hlD : 1 / (D : ℚ) < largeEndOf powFn D dmax := by
    rw [largeEndOf]
    have h2 : 2 / (D : ℚ) - 1 / (D : ℚ) = 1 / (D : ℚ) := by ring
    linarith
  have hsl : smallEndOf powFn D dmax < largeEndOf powFn D dmax := lt_trans hsD hlD
  have hl0 : 0 < largeEndOf powFn D dmax := lt_trans (by positivity) hlD
  have hm_nn : ∀ j : ℕ,
      0 ≤ multiplier D (smallEndOf powFn D dmax) (largeEndOf powFn D dmax) j := by
    intro j
    rw [multiplier]
    have h1 : 0 ≤ (j : ℚ) / ((D : ℚ) - 1) := by positivity
    nlinarith
  have hm_le : ∀ j : ℕ, j < D →
      multiplier D (smallEndOf powFn D dmax) (largeEndOf powFn D dmax) j
        ≤ largeEndOf powFn D dmax := by
    intro j hj
    rw [multiplier]
    have h1 : (j : ℚ) / ((D : ℚ) - 1) ≤ 1 := by
      rw [div_le_one hD1]
      have h2 : (j : ℚ) + 1 ≤ (D : ℚ) := by exact_mod_cast hj
      linarith
    nlinarith
  have hm_lt : ∀ j : ℕ, j < D - 1 →
      multiplier D (smallEndOf powFn D dmax) (largeEndOf powFn D dmax) j
        < largeEndOf powFn D dmax := by
    intro j hj
    rw [multiplier]
    have h1 : (j : ℚ) / ((D : ℚ) - 1) < 1 := by
      rw [div_lt_one hD1]
      have h2 : j + 2 ≤ D := by omega
      have h3 : (j : ℚ) + 2 ≤ (D : ℚ) := by exact_mod_cast h2
      linarith
    nlinarith
  have hm_top : multiplier D (smallEndOf powFn D dmax) (largeEndOf powFn D dmax) (D - 1)
      = largeEndOf powFn D dmax := by
    rw [multiplier, Nat.cast_sub (by omega : 1 ≤ D), Nat.cast_one,
      div_self (ne_of_gt hD1), one_mul]
    ring
  have hσtop : (sortIndexOf D row).getD (D - 1) 0 = d :=
    sortIndexOf_getLast D row hlen (by omega) d hd hu
  have hpd : 0 < row.getD d 0 := by
    obtain ⟨k, hk, hkd, hkpos⟩ := hother
    exact lt_trans hkpos (hu k hk hkd)
  have hSdef := multRow_sum powFn D dmax row hlen
  have hS_le : ∀ j ∈ List.range D,
      row.getD ((sortIndexOf D row).getD j 0) 0 *
          multiplier D (smallEndOf powFn D dmax) (largeEndOf powFn D dmax) j
        ≤ row.getD ((sortIndexOf D row).getD j 0) 0 * largeEndOf powFn D dmax :=
    fun j hj =>
      mul_le_mul_of_nonneg_left (hm_le j (List.mem_range.mp hj)) (hnn _)
  have hexists : ∃ j ∈ List.range D,
      row.getD ((sortIndexOf D row).getD j 0) 0 *
          multiplier D (smallEndOf powFn D dmax) (largeEndOf powFn D dmax) j
        < row.getD ((sortIndexOf D row).getD j 0) 0 * largeEndOf powFn D dmax := by
    obtain ⟨k, hk, hkd, hkpos⟩ := hother
    obtain ⟨j0, hj0, hj0k⟩ := sortIndexOf_surj D row hlen k hk
    have hj0ne : j0 ≠ D - 1 := by
      intro hEq
      rw [hEq, hσtop] at hj0k
      exact hkd hj0k.symm
    have hj0lt : j0 < D - 1 := by omega
    refine ⟨j0, List.mem_range.mpr hj0, ?_⟩
    rw [hj0k]
    exact mul_lt_mul_of_pos_left (hm_lt j0 hj0lt) hkpos
  have hsum_lt := List.sum_lt_sum (l := List.range D)
    (fun j => row.getD ((sortIndexOf D row).getD j 0) 0 *
      multiplier D (smallEndOf powFn D dmax) (largeEndOf powFn D dmax) j)
    (fun j => row.getD ((sortIndexOf D row).getD j 0) 0 * largeEndOf powFn D dmax)
    hS_le hexists
  have hg : ((List.range D).map
      (fun j => row.getD ((sortIndexOf D row).getD j 0) 0 * largeEndOf powFn D dmax)).sum
      = largeEndOf powFn D dmax := by
    rw [List.sum_map_mul_right, sortIndexOf_sum_comp D row hlen, hsum, one_mul]
  have hS_lt : (multRow powFn D dmax row).sum < largeEndOf powFn D dmax := by
    rw [hSdef]
    rw [hg] at hsum_lt
    exact hsum_lt
  have hS_pos : 0 < (multRow powFn D dmax row).sum := by
    rw [hSdef]
    have h0 := List.sum_lt_sum (l := List.range D) (fun _ => (0 : ℚ))
      (fun j => row.getD ((sortIndexOf D row).getD j 0) 0 *
        multiplier D (smallEndOf powFn D dmax) (largeEndOf powFn D dmax) j)
      (fun j _ => mul_nonneg (hnn _) (hm_nn j))
      ⟨D - 1, List.mem_range.mpr (by omega), by
        show (0 : ℚ) < row.getD ((sortIndexOf D row).getD (D - 1) 0) 0 *
          multiplier D (smallEndOf powFn D dmax) (largeEndOf powFn D dmax) (D - 1)
        rw [hσtop, hm_top]
        exact mul_pos hpd hl0⟩
    simpa using h0
  have hval : (multRow powFn D dmax row).getD d 0
      = row.getD d 0 * largeEndOf powFn D dmax := by
    have h1 := multRow_getD powFn D dmax row hlen (D - 1) (by omega)
    rw [hσtop, hm_top] at h1
    exact h1
  rw [sharpenRow, normalizeRow_getD, hval, lt_div_iff₀ hS_pos]
  exact mul_lt_mul_of_pos_left hS_lt hpd

unseal Rat.add Rat.mul Rat.sub Rat.inv in
/-- Witness for C4 (amended): `D = 2`, row `[3/4, 1/4]`, `diffMax = 1/10`,
`powFn = id` (so the mapped ratio is `1/3 ∈ [0, 1)`): the dominant entry goes
from `3/4` up to `15/16`. -/
theorem sharpen_strictly_increases_dominant_witness :
    ([3/4, (1/4 : ℚ)]).getD 0 0 < (sharpenRow id 2 (1/10) [3/4, (1/4 : ℚ)]).getD 0 0 :=
  sharpen_strictly_increases_dominant id 2 (1/10) [3/4, (1/4 : ℚ)]
    (by omega) (by decide)
    (by
      intro k
      match k with
      | 0 => decide
      | 1 => decide
      | n + 2 => simp)
    (by decide) 0 (by omega) (by decide)
    (by
      intro k hk hkne
      interval_cases k
      · exact absurd rfl hkne
      · decide)
    ⟨1, by omega, by omega, by decide⟩
    (by decide) (by decide)

/-! ## Helper lemmas: positivity and sums through the update -/

theorem l1dist_nonneg (a b : List ℚ) : 0 ≤ l1dist a b := by
  induction a generalizing b with
  | nil => simp [l1dist]
  | cons x xs ih =>
    cases b with
    | nil => simp [l1dist]
    | cons y ys =>
      have hih := ih ys
      rw [l1dist] at hih ⊢
      rw [List.zipWith_cons_cons, List.sum_cons]
      exact add_nonneg (abs_nonneg _) hih

theorem foldl_max_spec (t : List ℚ) : ∀ x : ℚ, x ≤ t.foldl max x ∧
    (∀ y ∈ t, y ≤ t.foldl max x) ∧ (t.foldl max x = x ∨ t.foldl max x ∈ t) := by
  induction t with
  | nil => exact fun x => ⟨le_refl x, by simp, Or.inl rfl⟩
  | cons z t ih =>
    intro x
    obtain ⟨h1, h2, h3⟩ := ih (max x z)
    refine ⟨le_trans (le_max_left x z) h1, ?_, ?_⟩
    · intro y hy
      rcases List.mem_cons.mp hy with rfl | hy'
      · exact le_trans (le_max_right x y) h1
      · exact h2 y hy'
    · rcases h3 with hEq | hMem
      · rcases max_choice x z with hx | hz
        · exact Or.inl (by rw [List.foldl_cons, hEq, hx])
        · exact Or.inr (by rw [List.foldl_cons, hEq, hz]; exact List.mem_cons_self z t)
      · exact Or.inr (List.mem_cons_of_mem z hMem)

theorem pyMax_spec (l : List ℚ) (v : ℚ) (h : pyMax l = some v) :
    v ∈ l ∧ ∀ x ∈ l, x ≤ v := by
  cases l with
  | nil => exact absurd h (by simp [pyMax])
  | cons x t =>
    rw [pyMax, Option.some_inj] at h
    obtain ⟨h1, h2, h3⟩ := foldl_max_spec t x
    subst h
    refine ⟨?_, ?_⟩
    · rcases h3 with hEq | hMem
      · rw [hEq]; exact List.mem_cons_self x t
      · exact List.mem_cons_of_mem x hMem
    · intro y hy
      rcases List.mem_cons.mp hy with rfl | hy'
      · exact h1
      · exact h2 y hy'

theorem pairDiffs_nonneg (dist : List (List ℚ)) (comb : List ℕ) :
    ∀ x ∈ pairDiffs dist comb, 0 ≤ x := by
  intro x hx
  rw [pairDiffs] at hx
  obtain ⟨p, _, rfl⟩ := List.mem_map.mp hx
  exact l1dist_nonneg _ _

/-- Length, total and positivity of the equal-weight average over a clique of
positive rows. -/
theorem avgRow_props (distT : List (List ℚ)) (nbrs : List ℕ) (i D : ℕ) (hD : 1 ≤ D)
    (hrows : ∀ n ∈ i :: nbrs, (distT.getD n []).length = D ∧ ∀ x ∈ distT.getD n [], 0 < x) :
    (avgRow distT nbrs i).length = D ∧ (avgRow distT nbrs i).sum = 1 ∧
    ∀ k, k < D → 0 < (avgRow distT nbrs i).getD k 0 := by
  obtain ⟨hhost_len, hhost_pos⟩ := hrows i (by simp)
  have hn : ∀ n ∈ nbrs, (distT.getD n []).length = D := fun n hn =>
    (hrows n (by simp [hn])).1
  have hacc_len : (vscale 1 (distT.getD i [])).length = D := by
    rw [vscale_length, hhost_len]
  have hg : ∀ n ∈ nbrs, (distT.getD n []).length = (vscale 1 (distT.getD i [])).length := by
    intro n hn'
    rw [hacc_len]
    exact hn n hn'
  have hhost_sum : 0 < (distT.getD i []).sum := by
    apply List.sum_pos _ hhost_pos
    intro hEq
    rw [hEq] at hhost_len
    simp at hhost_len
    omega
  have hnbr_sums : 0 ≤ (nbrs.map (fun n => (distT.getD n []).sum)).sum := by
    apply List.sum_nonneg
    intro x hx
    obtain ⟨n, hn', rfl⟩ := List.mem_map.mp hx
    exact List.sum_nonneg (fun y hy => le_of_lt ((hrows n (by simp [hn'])).2 y hy))
  have htot : 0 < (distT.getD i []).sum + (nbrs.map (fun n => (distT.getD n []).sum)).sum :=
    add_pos_of_pos_of_nonneg hhost_sum hnbr_sums
  have hFsum : (nbrs.foldl (fun a n => vadd a (distT.getD n []))
      (vscale 1 (distT.getD i []))).sum =
      (distT.getD i []).sum + (nbrs.map (fun n => (distT.getD n []).sum)).sum := by
    rw [foldl_vadd_sum (fun n => distT.getD n []) nbrs _ hg, vscale_sum, one_mul]
  refine ⟨?_, ?_, ?_⟩
  · rw [avgRow, normalizeRow_length,
      foldl_vadd_length (fun n => distT.getD n []) nbrs _ hg, hacc_len]
  · rw [avgRow, normalizeRow_sum _ (by rw [hFsum]; exact ne_of_gt htot)]
  · intro k hk
    rw [avgRow_formula distT nbrs i D hhost_len hn k]
    apply div_pos _ htot
    apply add_pos_of_pos_of_nonneg
    · exact hhost_pos _ (getD_mem _ k 0 (by rw [hhost_len]; exact hk))
    · apply List.sum_nonneg
      intro x hx
      obtain ⟨n, hn', rfl⟩ := List.mem_map.mp hx
      exact le_of_lt ((hrows n (by simp [hn'])).2 _
        (getD_mem _ k 0 (by rw [(hrows n (by simp [hn'])).1]; exact hk)))

/-- The subgroup-size weighted average of a clique of positive rows sums
to 1 when the host's weight is at least 1. -/
theorem wavgRow_sum_one (distT : List (List ℚ)) (subsizes : ℕ → ℕ) (nbrs : List ℕ)
    (i D : ℕ) (hD : 1 ≤ D) (hss : 1 ≤ subsizes i)
    (hrows : ∀ n ∈ i :: nbrs, (distT.getD n []).length = D ∧ ∀ x ∈ distT.getD n [], 0 < x) :
    (wavgRow distT subsizes nbrs i).sum = 1 := by
  obtain ⟨hhost_len, hhost_pos⟩ := hrows i (by simp)
  have hacc_len : (vscale (subsizes i) (distT.getD i [])).length = D := by
    rw [vscale_length, hhost_len]
  have hg : ∀ n ∈ nbrs,
      (vscale (subsizes n) (distT.getD n [])).length
        = (vscale (subsizes i) (distT.getD i [])).length := by
    intro n hn'
    rw [hacc_len, vscale_length]
    exact (hrows n (by simp [hn'])).1
  have hhost_sum : 0 < (distT.getD i []).sum := by
    apply List.sum_pos _ hhost_pos
    intro hEq
    rw [hEq] at hhost_len
    simp at hhost_len
    omega
  have hssQ : (1 : ℚ) ≤ (subsizes i : ℚ) := by exact_mod_cast hss
  have hfirst : 0 < ((subsizes i : ℚ)) * (distT.getD i []).sum :=
    mul_pos (by linarith) hhost_sum
  have hrest : 0 ≤ (nbrs.map (fun n => (vscale (subsizes n) (distT.getD n [])).sum)).sum := by
    apply List.sum_nonneg
    intro x hx
    obtain ⟨n, hn', rfl⟩ := List.mem_map.mp hx
    rw [vscale_sum]
    apply mul_nonneg (by positivity)
    exact List.sum_nonneg (fun y hy => le_of_lt ((hrows n (by simp [hn'])).2 y hy))
  rw [wavgRow, normalizeRow_sum]
  rw [foldl_vadd_sum (fun n => vscale (subsizes n) (distT.getD n [])) nbrs _ hg, vscale_sum]
  exact ne_of_gt (add_pos_of_pos_of_nonneg hfirst hrest)

/-- Sharpening a positive row keeps the total at 1, provided the power value
lies in `[0, 1]`. -/
theorem sharpenRow_sum_one (powFn : ℚ → ℚ) (D : ℕ) (dmax : ℚ) (row : List ℚ)
    (hD : 2 ≤ D) (hlen : row.length = D)
    (hpos : ∀ k, k < D → 0 < row.getD k 0)
    (hp0 : 0 ≤ powFn (dmax / dist_diff_thres))
    (hp1 : powFn (dmax / dist_diff_thres) ≤ 1) :
    (sharpenRow powFn D dmax row).sum = 1 := by
  have hDQ : (2 : ℚ) ≤ (D : ℚ) := by exact_mod_cast hD
  have hD0 : (0 : ℚ) < (D : ℚ) := by linarith
  have hD1 : (0 : ℚ) < (D : ℚ) - 1 := by linarith
  have hs0 : 0 ≤ smallEndOf powFn D dmax := by
    rw [smallEndOf]
    exact mul_nonneg (by positivity) hp0
  have hsD : smallEndOf powFn D dmax ≤ 1 / (D : ℚ) := by
    rw [smallEndOf]
    calc 1 / (D : ℚ) * powFn (dmax / dist_diff_thres) ≤ 1 / (D : ℚ) * 1 :=
          mul_le_mul_of_nonneg_left hp1 (by positivity)
      _ = 1 / (D : ℚ) := mul_one _
  have hlD : 1 / (D : ℚ) ≤ largeEndOf powFn D dmax := by
    rw [largeEndOf]
    have h2 : 2 / (D : ℚ) - 1 / (D : ℚ) = 1 / (D : ℚ) := by ring
    linarith
  have hl0 : 0 < largeEndOf powFn D dmax := lt_of_lt_of_le (by positivity) hlD
  have hm_nn : ∀ j : ℕ,
      0 ≤ multiplier D (smallEndOf powFn D dmax) (largeEndOf powFn D dmax) j := by
    intro j
    rw [multiplier]
    have h1 : 0 ≤ (j : ℚ) / ((D : ℚ) - 1) := by positivity
    nlinarith
  have hm_top : multiplier D (smallEndOf powFn D dmax) (largeEndOf powFn D dmax) (D - 1)
      = largeEndOf powFn D dmax := by
    rw [multiplier, Nat.cast_sub (by omega : 1 ≤ D), Nat.cast_one,
      div_self (ne_of_gt hD1), one_mul]
    ring
  have hσtop_lt : (sortIndexOf D row).getD (D - 1) 0 < D := by
    apply sortIndexOf_mem_lt D row hlen
    exact getD_mem _ (D - 1) 0 (by rw [sortIndexOf_length D row hlen]; omega)
  have hS_pos : 0 < (multRow powFn D dmax row).sum := by
    rw [multRow_sum powFn D dmax row hlen]
    have h0 := List.sum_lt_sum (l := List.range D) (fun _ => (0 : ℚ))
      (fun j => row.getD ((sortIndexOf D row).getD j 0) 0 *
        multiplier D (smallEndOf powFn D dmax) (largeEndOf powFn D dmax) j)
      (by
        intro j hj
        show (0 : ℚ) ≤ row.getD ((sortIndexOf D row).getD j 0) 0 *
          multiplier D (smallEndOf powFn D dmax) (largeEndOf powFn D dmax) j
        have hjD : j < D := List.mem_range.mp hj
        exact mul_nonneg
          (le_of_lt (hpos _ (sortIndexOf_mem_lt D row hlen _
            (getD_mem _ j 0 (by rw [sortIndexOf_length D row hlen]; exact hjD)))))
          (hm_nn j))
      ⟨D - 1, List.mem_range.mpr (by omega), by
        show (0 : ℚ) < row.getD ((sortIndexOf D row).getD (D - 1) 0) 0 *
          multiplier D (smallEndOf powFn D dmax) (largeEndOf powFn D dmax) (D - 1)
        rw [hm_top]
        exact mul_pos (hpos _ hσtop_lt) hl0⟩
    simpa using h0
  rw [sharpenRow, normalizeRow_sum _ (ne_of_gt hS_pos)]

theorem removeAll_perm : ∀ (l cur : List ℕ), removeAll cur l = some [] → l.Perm cur := by
  intro l
  induction l with
  | nil =>
    intro cur h
    rw [removeAll, Option.some_inj] at h
    rw [← h]
  | cons m t ih =>
    intro cur h
    rw [removeAll] at h
    by_cases hm : m ∈ cur
    · rw [if_pos hm] at h
      exact ((ih (cur.erase m) h).cons m).trans (List.perm_cons_erase hm).symm
    · rw [if_neg hm] at h
      exact absurd h (by simp)

theorem traverseCheck_subsize (N : ℕ) (subs : List (List ℕ))
    (h : traverseCheck N subs = true) (i : ℕ) (hi : i < N) : 1 ≤ subsizeOf subs i := by
  have hrm : removeAll (List.range N) subs.flatten = some [] := by
    rw [traverseCheck] at h
    exact eq_of_beq h
  have hperm := removeAll_perm subs.flatten (List.range N) hrm
  have himem : i ∈ subs.flatten := hperm.mem_iff.mpr (List.mem_range.mpr hi)
  obtain ⟨S, hS, hiS⟩ := List.mem_flatten.mp himem
  have hfind : (subs.find? (fun S => S.contains i)).isSome :=
    List.find?_isSome.mpr ⟨S, hS, by simpa using hiS⟩
  obtain ⟨S', hS'⟩ := Option.isSome_iff_exists.mp hfind
  have hmemS' : i ∈ S' := by simpa using List.find?_some hS'
  rw [subsizeOf, hS']
  have hne : S' ≠ [] := by
    intro hEq
    rw [hEq] at hmemS'
    simp at hmemS'
  have hlp := List.length_pos.mpr hne
  show 1 ≤ S'.length
  omega

/-- The per-node update writes one normalized row into the working array. -/
theorem nodeUpdate_preserves (powFn : ℚ → ℚ) (D : ℕ) (deci_domi : ℕ → ℕ)
    (nbrsOf : ℕ → List ℕ) (subsizes : ℕ → ℕ) (distT dist : List (List ℚ)) (i : ℕ)
    (hD : 2 ≤ D)
    (hpow : ∀ q, 0 ≤ q → q < 1 → 0 ≤ powFn q ∧ powFn q ≤ 1)
    (hi : i < dist.length)
    (hrows : ∀ n ∈ i :: nbrsOf i, (distT.getD n []).length = D ∧ ∀ x ∈ distT.getD n [], 0 < x)
    (hss : 1 ≤ subsizes i) :
    ∀ res, nodeUpdate powFn D deci_domi nbrsOf subsizes distT dist i = some res →
      ∃ r, res = dist.set i r ∧ r.sum = 1 := by
  intro res hres
  rw [nodeUpdate] at hres
  by_cases hconv : convergedAt deci_domi (nbrsOf i) i
  · rw [if_pos hconv] at hres
    simp only [] at hres
    obtain ⟨hAlen, hAsum, hApos⟩ := avgRow_props distT (nbrsOf i) i D (by omega) hrows
    rcases hmax : pyMax (pairDiffs (dist.set i (avgRow distT (nbrsOf i) i)) (i :: nbrsOf i))
      with _ | dmax
    · rw [hmax] at hres
      exact absurd hres (by simp)
    · rw [hmax] at hres
      simp only [] at hres
      have hdm0 : 0 ≤ dmax :=
        pairDiffs_nonneg _ _ dmax (pyMax_spec _ dmax hmax).1
      by_cases hlt : dmax < dist_diff_thres
      · rw [if_pos hlt] at hres
        obtain rfl := Option.some_inj.mp hres
        have hratio0 : 0 ≤ dmax / dist_diff_thres :=
          div_nonneg hdm0 (by rw [dist_diff_thres]; positivity)
        have hratio1 : dmax / dist_diff_thres < 1 := by
          rw [div_lt_one (by rw [dist_diff_thres]; positivity)]
          exact hlt
        obtain ⟨hp0, hp1⟩ := hpow _ hratio0 hratio1
        refine ⟨sharpenRow powFn D dmax (avgRow distT (nbrsOf i) i), ?_, ?_⟩
        · rw [getD_set_self _ _ _ _ hi, List.set_set]
        · exact sharpenRow_sum_one powFn D dmax _ hD hAlen hApos hp0 hp1
      · rw [if_neg hlt] at hres
        obtain rfl := Option.some_inj.mp hres
        exact ⟨avgRow distT (nbrsOf i) i, rfl, hAsum⟩
  · rw [if_neg hconv] at hres
    obtain rfl := Option.some_inj.mp hres
    exact ⟨wavgRow distT subsizes (nbrsOf i) i, rfl,
      wavgRow_sum_one distT subsizes (nbrsOf i) i D (by omega) hss hrows⟩

/-- Folding the per-node updates over any processing order keeps every
processed row summing to 1. -/
theorem foldl_nodeUpdate_sums (powFn : ℚ → ℚ) (D : ℕ) (deci_domi : ℕ → ℕ)
    (nbrsOf : ℕ → List ℕ) (subsizes : ℕ → ℕ) (distT : List (List ℚ))
    (hD : 2 ≤ D)
    (hpow : ∀ q, 0 ≤ q → q < 1 → 0 ≤ powFn q ∧ powFn q ≤ 1)
    (hrows_all : ∀ n, n < distT.length →
      (distT.getD n []).length = D ∧ ∀ x ∈ distT.getD n [], 0 < x)
    (hnbrs : ∀ i n, n ∈ nbrsOf i → n < distT.length)
    (hss : ∀ i, i < distT.length → 1 ≤ subsizes i) :
    ∀ (order : List ℕ) (cur : List (List ℚ)), cur.length = distT.length →
      (∀ i ∈ order, i < distT.length) →
      ∀ res, order.foldlM
          (fun cur i => nodeUpdate powFn D deci_domi nbrsOf subsizes distT cur i) cur
        = some res →
      res.length = cur.length ∧
      (∀ i ∈ order, (res.getD i []).sum = 1) ∧
      (∀ i, res.getD i [] = cur.getD i [] ∨ (res.getD i []).sum = 1) := by
  intro order
  induction order with
  | nil =>
    intro cur hcur horder res hres
    rw [List.foldlM_nil] at hres
    have hres' : some cur = some res := hres
    obtain rfl := Option.some_inj.mp hres'
    exact ⟨rfl, by simp, fun i => Or.inl rfl⟩
  | cons i t ih =>
    intro cur hcur horder res hres
    rw [List.foldlM_cons] at hres
    obtain ⟨cur', hcur', hrest⟩ := Option.bind_eq_some.mp hres
    have hiN : i < distT.length := horder i (by simp)
    obtain ⟨r, rfl, hrsum⟩ := nodeUpdate_preserves powFn D deci_domi nbrsOf subsizes
      distT cur i hD hpow (by rw [hcur]; exact hiN)
      (by
        intro n hn
        rcases List.mem_cons.mp hn with rfl | hn'
        · exact hrows_all n hiN
        · exact hrows_all n (hnbrs i n hn'))
      (hss i hiN) cur' hcur'
    obtain ⟨ihlen, ihin, ihor⟩ := ih (cur.set i r) (by rw [List.length_set, hcur])
      (fun j hj => horder j (by simp [hj])) res hrest
    have hicur : i < cur.length := by rw [hcur]; exact hiN
    refine ⟨by rw [ihlen, List.length_set], ?_, ?_⟩
    · intro j hj
      rcases List.mem_cons.mp hj with rfl | hj'
      · rcases ihor j with hEq | hsum1
        · rw [hEq, getD_set_self _ _ _ _ hicur]
          exact hrsum
        · exact hsum1
      · exact ihin j hj'
    · intro j
      rcases ihor j with hEq | hsum1
      · by_cases hji : j = i
        · subst hji
          rw [hEq, getD_set_self _ _ _ _ hicur]
          exact Or.inr hrsum
        · rw [hEq, getD_set_ne _ _ _ _ _ hji]
          exact Or.inl rfl
      · exact Or.inr hsum1

/-! ## Claim C8: the normalization invariant -/

/-- Claim C8: whenever a round completes (returns a next-round state), every
node's distribution sums to exactly 1 under exact arithmetic — on the
converged branch with or without sharpening and on the divergent branch. The
hypotheses (strictly positive input rows of width `D ≥ 2`, a power map sending
`[0,1)` into `[0,1]`, true of `x ^ 0.3`) guarantee the claim's proviso that
every pre-normalization sum is nonzero. -/
theorem round_rows_sum_to_one (powFn : ℚ → ℚ) (N D : ℕ) (adj : ℕ → ℕ → Bool)
    (deci_dist : List (List ℚ))
    (hD : 2 ≤ D)
    (hpow : ∀ q, 0 ≤ q → q < 1 → 0 ≤ powFn q ∧ powFn q ≤ 1)
    (hN : deci_dist.length = N)
    (hrows : ∀ r ∈ deci_dist, r.length = D ∧ ∀ x ∈ r, 0 < x) :
    ∀ res, roundUpdate powFn N D adj deci_dist = some res →
      res.length = N ∧ ∀ i, i < N → (res.getD i []).sum = 1 := by
  intro res hres
  rw [roundUpdate, roundUpdateOrder] at hres
  rcases hsub : findSubgroups N adj (fun i => argmaxList (deci_dist.getD i [])) with _ | subs
  · rw [hsub] at hres
    exact absurd hres (by simp)
  · rw [hsub] at hres
    simp only [] at hres
    by_cases hchk : traverseCheck N subs
    · rw [if_pos hchk] at hres
      obtain ⟨hlen, hin, _⟩ := foldl_nodeUpdate_sums powFn D
        (fun i => argmaxList (deci_dist.getD i [])) (connectionList N adj)
        (subsizeOf subs) deci_dist hD hpow
        (fun n hn => hrows _ (getD_mem _ n [] hn))
        (fun i n hn => by
          rw [hN]
          exact List.mem_range.mp (List.mem_of_mem_filter hn))
        (fun i hi => traverseCheck_subsize N subs hchk i (by rw [← hN]; exact hi))
        (List.range N) deci_dist rfl
        (fun i hi => by rw [hN]; exact List.mem_range.mp hi)
        res hres
      exact ⟨by rw [hlen, hN], fun i hi => hin i (List.mem_range.mpr hi)⟩
    · rw [if_neg hchk] at hres
      exact absurd hres (by simp)

unseal Rat.add Rat.mul Rat.sub Rat.inv in
/-- Witness for C8: a full concrete round (which exercises averaging and
sharpening) yields rows that sum to 1. -/
theorem round_rows_sum_to_one_witness :
    roundUpdate id 2 2 twoNodeAdj exDistA = some [[3/4, 1/4], [1, 0]] ∧
    (([[3/4, (1/4 : ℚ)], [1, 0]].getD 0 []).sum = 1 ∧
      ([[3/4, (1/4 : ℚ)], [1, 0]].getD 1 []).sum = 1) := by
  have heq : roundUpdate id 2 2 twoNodeAdj exDistA = some [[3/4, (1/4 : ℚ)], [1, 0]] := by
    decide
  have h := round_rows_sum_to_one id 2 2 twoNodeAdj exDistA (by omega)
    (fun q h0 h1 => ⟨h0, le_of_lt h1⟩) (by decide) (by decide)
    [[3/4, (1/4 : ℚ)], [1, 0]] heq
  exact ⟨heq, h.2 0 (by omega), h.2 1 (by omega)⟩

/-! ## Helper lemmas: the subgroup search (lines 215-266) -/

theorem appendMembers_split (pool sub : List ℕ) (cands : List ℕ) :
    ∀ pm : List ℕ, ∃ extra,
      appendMembers pool sub pm cands = pm ++ extra ∧
      (∀ x ∈ extra, x ∈ cands ∧ x ∉ sub ∧ x ∈ pool) ∧
      (pm.Nodup → (pm ++ extra).Nodup) := by
  induction cands with
  | nil => exact fun pm => ⟨[], by simp [appendMembers], by simp, fun h => by simpa using h⟩
  | cons c t ih =>
    intro pm
    rw [appendMembers, List.foldl_cons]
    by_cases hc : c ∉ pm ∧ c ∉ sub ∧ c ∈ pool
    · rw [if_pos hc]
      obtain ⟨extra, hEq, hprops, hnd⟩ := ih (pm ++ [c])
      refine ⟨c :: extra, ?_, ?_, ?_⟩
      · rw [appendMembers] at hEq
        rw [hEq, List.append_assoc]
        rfl
      · intro x hx
        rcases List.mem_cons.mp hx with rfl | hx'
        · exact ⟨by simp, hc.2.1, hc.2.2⟩
        · obtain ⟨h1, h2, h3⟩ := hprops x hx'
          exact ⟨by simp [h1], h2, h3⟩
      · intro hpmnd
        have h1 : (pm ++ [c]).Nodup := by
          rw [List.nodup_append]
          refine ⟨hpmnd, by simp, ?_⟩
          intro a ha hac
          rw [List.mem_singleton] at hac
          exact hc.1 (hac ▸ ha)
        have h2 := hnd h1
        have h3 : pm ++ c :: extra = (pm ++ [c]) ++ extra := by
          rw [List.append_assoc]
          rfl
        rw [h3]
        exact h2
    · rw [if_neg hc]
      obtain ⟨extra, hEq, hprops, hnd⟩ := ih pm
      refine ⟨extra, by rw [appendMembers] at hEq; exact hEq, ?_, hnd⟩
      intro x hx
      obtain ⟨h1, h2, h3⟩ := hprops x hx
      exact ⟨by simp [h1], h2, h3⟩

theorem appendMembers_mono (pool sub : List ℕ) (cands pm : List ℕ) :
    ∀ x ∈ pm, x ∈ appendMembers pool sub pm cands := by
  obtain ⟨extra, hEq, _, _⟩ := appendMembers_split pool sub cands pm
  intro x hx
  rw [hEq]
  exact List.mem_append_left extra hx

theorem appendMembers_covers (pool sub : List ℕ) (cands : List ℕ) :
    ∀ pm : List ℕ, ∀ x ∈ cands,
      x ∈ appendMembers pool sub pm cands ∨ x ∈ sub ∨ x ∉ pool := by
  induction cands with
  | nil => intro pm x hx; simp at hx
  | cons c t ih =>
    intro pm x hx
    rw [appendMembers, List.foldl_cons]
    by_cases hc : c ∉ pm ∧ c ∉ sub ∧ c ∈ pool
    · rw [if_pos hc]
      rcases List.mem_cons.mp hx with rfl | hx'
      · left
        exact appendMembers_mono pool sub t (pm ++ [x]) x (by simp)
      · exact ih (pm ++ [c]) x hx'
    · rw [if_neg hc]
      rcases List.mem_cons.mp hx with rfl | hx'
      · push_neg at hc
        by_cases h1 : x ∈ pm
        · exact Or.inl (appendMembers_mono pool sub t pm x h1)
        · by_cases h2 : x ∈ sub
          · exact Or.inr (Or.inl h2)
          · exact Or.inr (Or.inr (hc h1 h2))
      · exact ih pm x hx'

/-- Erasing the element found at position `pIdx` of a duplicate-free list
leaves the positions before `pIdx` unchanged. -/
theorem erase_get_eq_eraseIdx (pm : List ℕ) (hnd : pm.Nodup) (pIdx : ℕ)
    (h : pIdx < pm.length) : pm.erase (pm.get ⟨pIdx, h⟩) = pm.eraseIdx pIdx := by
  induction pm generalizing pIdx with
  | nil => simp at h
  | cons a t ih =>
    cases pIdx with
    | zero => simp [List.eraseIdx]
    | succ k =>
      have hk : k < t.length := by simpa using h
      have hmem : t.get ⟨k, hk⟩ ∈ t := List.get_mem t k hk
      have hne : a ≠ t.get ⟨k, hk⟩ := by
        intro hEq
        exact (List.nodup_cons.mp hnd).1 (hEq ▸ hmem)
      show (a :: t).erase (t.get ⟨k, hk⟩) = a :: t.eraseIdx k
      rw [List.erase_cons_tail (by simpa using hne),
        ih (List.nodup_cons.mp hnd).2 k hk]

/-- The main invariant lemma for the inner member search (lines 232-251): with
enough fuel and a well-formed state, the search succeeds (in particular the
`n_pool.remove` of line 238 never raises) and returns a subgroup extending
`sub` that preserves the multiset `sub ++ pool`, holds only nodes of the
current dominant decision, only nodes satisfying the hereditary predicate `R`,
and is closed under same-label adjacency. -/
theorem searchSub_spec (deci_domi : ℕ → ℕ) (nbrsOf : ℕ → List ℕ) (cd : ℕ)
    (R : ℕ → Prop)
    (hR : ∀ x y, R x → y ∈ nbrsOf x → deci_domi y = cd → R y) :
    ∀ (fuel : ℕ) (sub pool pm : List ℕ) (pIdx : ℕ),
    pool.length * pool.length + pool.length + (pm.length - pIdx) < fuel →
    (sub ++ pool).Nodup →
    pm.Nodup →
    (∀ x ∈ pm, deci_domi x = cd → x ∈ pool) →
    (∀ x ∈ pm, ∃ y ∈ sub, x ∈ nbrsOf y) →
    (∀ k (hk : k < pm.length), k < pIdx → deci_domi (pm.get ⟨k, hk⟩) ≠ cd) →
    (∀ x ∈ sub, deci_domi x = cd) →
    (∀ x ∈ sub, R x) →
    (∀ y ∈ sub, ∀ x ∈ nbrsOf y, deci_domi x = cd → x ∈ sub ∨ x ∈ pm) →
    (∀ a b, (a ∈ sub ∨ a ∈ pool) → b ∈ nbrsOf a → deci_domi a = deci_domi b →
      b ∈ sub ∨ b ∈ pool) →
    ∃ subF poolF,
      searchSub deci_domi nbrsOf cd fuel sub pool pm pIdx = some (subF, poolF) ∧
      (∀ x ∈ sub, x ∈ subF) ∧
      (subF ++ poolF).Perm (sub ++ pool) ∧
      (∀ x ∈ subF, deci_domi x = cd) ∧
      (∀ x ∈ subF, R x) ∧
      (∀ y ∈ subF, ∀ x ∈ nbrsOf y, deci_domi x = cd → x ∈ subF) := by
  intro fuel
  induction fuel with
  | zero =>
    intro sub pool pm pIdx hfuel
    omega
  | succ fuel ih =>
    intro sub pool pm pIdx hfuel hnd hpmnd hpm_pool hpm_adj hprefix hsub_lab hsub_R
      hclosed hU
    rw [searchSub]
    by_cases h : pIdx < pm.length
    · rw [dif_pos h]
      simp only []
      by_cases hlbl : deci_domi (pm.get ⟨pIdx, h⟩) = cd
      · rw [if_pos hlbl]
        have hm_pm : pm.get ⟨pIdx, h⟩ ∈ pm := List.get_mem pm pIdx h
        have hm_pool : pm.get ⟨pIdx, h⟩ ∈ pool := hpm_pool _ hm_pm hlbl
        rw [if_pos hm_pool]
        obtain ⟨extra, hPM, hextra, hPMnd⟩ :=
          appendMembers_split (pool.erase (pm.get ⟨pIdx, h⟩)) (sub ++ [pm.get ⟨pIdx, h⟩])
            (nbrsOf (pm.get ⟨pIdx, h⟩)) (pm.erase (pm.get ⟨pIdx, h⟩))
        have hperm_step : ((sub ++ [pm.get ⟨pIdx, h⟩]) ++
            pool.erase (pm.get ⟨pIdx, h⟩)).Perm (sub ++ pool) := by
          rw [List.append_assoc]
          exact List.Perm.append_left sub
            (by
              rw [List.singleton_append]
              exact (List.perm_cons_erase hm_pool).symm)
        have hpm'nd : (pm.erase (pm.get ⟨pIdx, h⟩)).Nodup := hpmnd.erase _
        -- fuel for the recursive call
        have hpool_pos : 0 < pool.length := List.length_pos.mpr (by
          intro hEq
          rw [hEq] at hm_pool
          simp at hm_pool)
        have hplen : pool.length = (pool.erase (pm.get ⟨pIdx, h⟩)).length + 1 := by
          rw [List.length_erase_of_mem hm_pool]
          omega
        have hextra_nd : extra.Nodup := by
          have := hPMnd hpm'nd
          exact (List.nodup_append.mp this).2.1
        have hextra_sub : extra ⊆ pool.erase (pm.get ⟨pIdx, h⟩) := by
          intro x hx
          exact (hextra x hx).2.2
        have hextra_len : extra.length ≤ (pool.erase (pm.get ⟨pIdx, h⟩)).length :=
          (List.subperm_of_subset hextra_nd hextra_sub).length_le
        have hPMlen : (appendMembers (pool.erase (pm.get ⟨pIdx, h⟩))
            (sub ++ [pm.get ⟨pIdx, h⟩]) (pm.erase (pm.get ⟨pIdx, h⟩))
            (nbrsOf (pm.get ⟨pIdx, h⟩))).length
            = (pm.length - 1) + extra.length := by
          rw [hPM, List.length_append, List.length_erase_of_mem hm_pm]
        have hfuel' : (pool.erase (pm.get ⟨pIdx, h⟩)).length *
            (pool.erase (pm.get ⟨pIdx, h⟩)).length +
            (pool.erase (pm.get ⟨pIdx, h⟩)).length +
            ((appendMembers (pool.erase (pm.get ⟨pIdx, h⟩)) (sub ++ [pm.get ⟨pIdx, h⟩])
              (pm.erase (pm.get ⟨pIdx, h⟩)) (nbrsOf (pm.get ⟨pIdx, h⟩))).length - pIdx)
            < fuel := by
          rw [hPMlen]
          rw [hplen] at hfuel
          have hexp : ((pool.erase (pm.get ⟨pIdx, h⟩)).length + 1) *
              ((pool.erase (pm.get ⟨pIdx, h⟩)).length + 1)
              = (pool.erase (pm.get ⟨pIdx, h⟩)).length *
                  (pool.erase (pm.get ⟨pIdx, h⟩)).length +
                2 * (pool.erase (pm.get ⟨pIdx, h⟩)).length + 1 := by ring
          rw [hexp] at hfuel
          generalize (pool.erase (pm.get ⟨pIdx, h⟩)).length *
            (pool.erase (pm.get ⟨pIdx, h⟩)).length = q at hfuel ⊢
          omega
        -- invariants for the recursive call
        have hnd' : ((sub ++ [pm.get ⟨pIdx, h⟩]) ++
            pool.erase (pm.get ⟨pIdx, h⟩)).Nodup := hperm_step.nodup_iff.mpr hnd
        have hPMnd' : (appendMembers (pool.erase (pm.get ⟨pIdx, h⟩))
            (sub ++ [pm.get ⟨pIdx, h⟩]) (pm.erase (pm.get ⟨pIdx, h⟩))
            (nbrsOf (pm.get ⟨pIdx, h⟩))).Nodup := by
          rw [hPM]
          exact hPMnd hpm'nd
        have hpm_pool' : ∀ x ∈ appendMembers (pool.erase (pm.get ⟨pIdx, h⟩))
            (sub ++ [pm.get ⟨pIdx, h⟩]) (pm.erase (pm.get ⟨pIdx, h⟩))
            (nbrsOf (pm.get ⟨pIdx, h⟩)),
            deci_domi x = cd → x ∈ pool.erase (pm.get ⟨pIdx, h⟩) := by
          intro x hx hxl
          rw [hPM] at hx
          rcases List.mem_append.mp hx with hx' | hx'
          · obtain ⟨hxne, hxpm⟩ := (hpmnd.mem_erase_iff).mp hx'
            exact (List.mem_erase_of_ne hxne).mpr (hpm_pool x hxpm hxl)
          · exact (hextra x hx').2.2
        have hpm_adj' : ∀ x ∈ appendMembers (pool.erase (pm.get ⟨pIdx, h⟩))
            (sub ++ [pm.get ⟨pIdx, h⟩]) (pm.erase (pm.get ⟨pIdx, h⟩))
            (nbrsOf (pm.get ⟨pIdx, h⟩)),
            ∃ y ∈ sub ++ [pm.get ⟨pIdx, h⟩], x ∈ nbrsOf y := by
          intro x hx
          rw [hPM] at hx
          rcases List.mem_append.mp hx with hx' | hx'
          · obtain ⟨y, hy, hxy⟩ := hpm_adj x (List.mem_of_mem_erase hx')
            exact ⟨y, List.mem_append_left _ hy, hxy⟩
          · exact ⟨pm.get ⟨pIdx, h⟩, List.mem_append_right _ (by simp), (hextra x hx').1⟩
        have hprefix' : ∀ k (hk : k < (appendMembers (pool.erase (pm.get ⟨pIdx, h⟩))
            (sub ++ [pm.get ⟨pIdx, h⟩]) (pm.erase (pm.get ⟨pIdx, h⟩))
            (nbrsOf (pm.get ⟨pIdx, h⟩))).length), k < pIdx →
            deci_domi ((appendMembers (pool.erase (pm.get ⟨pIdx, h⟩))
              (sub ++ [pm.get ⟨pIdx, h⟩]) (pm.erase (pm.get ⟨pIdx, h⟩))
              (nbrsOf (pm.get ⟨pIdx, h⟩))).get ⟨k, hk⟩) ≠ cd := by
          intro k hk hklt
          have hk' : k < (pm.erase (pm.get ⟨pIdx, h⟩)).length := by
            rw [List.length_erase_of_mem hm_pm]
            omega
          have hopt : (appendMembers (pool.erase (pm.get ⟨pIdx, h⟩))
              (sub ++ [pm.get ⟨pIdx, h⟩]) (pm.erase (pm.get ⟨pIdx, h⟩))
              (nbrsOf (pm.get ⟨pIdx, h⟩)))[k]?
              = (pm.erase (pm.get ⟨pIdx, h⟩))[k]? := by
            rw [hPM]
            exact List.getElem?_append_left hk'
          have hget : (appendMembers (pool.erase (pm.get ⟨pIdx, h⟩))
              (sub ++ [pm.get ⟨pIdx, h⟩]) (pm.erase (pm.get ⟨pIdx, h⟩))
              (nbrsOf (pm.get ⟨pIdx, h⟩))).get ⟨k, hk⟩
              = (pm.erase (pm.get ⟨pIdx, h⟩))[k] := by
            rw [List.getElem?_eq_getElem hk, List.getElem?_eq_getElem hk'] at hopt
            rw [List.get_eq_getElem]
            exact Option.some_inj.mp hopt
          have hkpm : k < pm.length := by omega
          have hopt2 : (pm.erase (pm.get ⟨pIdx, h⟩))[k]? = pm[k]? := by
            rw [erase_get_eq_eraseIdx pm hpmnd pIdx h]
            exact List.getElem?_eraseIdx_of_lt pm pIdx k hklt
          have hval : (pm.erase (pm.get ⟨pIdx, h⟩))[k] = pm.get ⟨k, hkpm⟩ := by
            rw [List.getElem?_eq_getElem hk', List.getElem?_eq_getElem hkpm] at hopt2
            exact Option.some_inj.mp hopt2
          rw [hget, hval]
          exact hprefix k hkpm hklt
        have hsub_lab' : ∀ x ∈ sub ++ [pm.get ⟨pIdx, h⟩], deci_domi x = cd := by
          intro x hx
          rcases List.mem_append.mp hx with hx' | hx'
          · exact hsub_lab x hx'
          · rw [List.mem_singleton.mp hx']
            exact hlbl
        have hsub_R' : ∀ x ∈ sub ++ [pm.get ⟨pIdx, h⟩], R x := by
          intro x hx
          rcases List.mem_append.mp hx with hx' | hx'
          · exact hsub_R x hx'
          · rw [List.mem_singleton.mp hx']
            obtain ⟨y, hy, hmy⟩ := hpm_adj _ hm_pm
            exact hR y _ (hsub_R y hy) hmy hlbl
        have hclosed' : ∀ y ∈ sub ++ [pm.get ⟨pIdx, h⟩], ∀ x ∈ nbrsOf y,
            deci_domi x = cd →
            x ∈ sub ++ [pm.get ⟨pIdx, h⟩] ∨
            x ∈ appendMembers (pool.erase (pm.get ⟨pIdx, h⟩))
              (sub ++ [pm.get ⟨pIdx, h⟩]) (pm.erase (pm.get ⟨pIdx, h⟩))
              (nbrsOf (pm.get ⟨pIdx, h⟩)) := by
          intro y hy x hx hxl
          rcases List.mem_append.mp hy with hy' | hy'
          · rcases hclosed y hy' x hx hxl with hxs | hxpm
            · exact Or.inl (List.mem_append_left _ hxs)
            · by_cases hxm : x = pm.get ⟨pIdx, h⟩
              · exact Or.inl (List.mem_append_right _ (by simp [hxm]))
              · refine Or.inr ?_
                rw [hPM]
                exact List.mem_append_left _ ((List.mem_erase_of_ne hxm).mpr hxpm)
          · rw [List.mem_singleton.mp hy'] at hx
            rcases appendMembers_covers (pool.erase (pm.get ⟨pIdx, h⟩))
              (sub ++ [pm.get ⟨pIdx, h⟩]) (nbrsOf (pm.get ⟨pIdx, h⟩))
              (pm.erase (pm.get ⟨pIdx, h⟩)) x hx with hc | hc | hc
            · exact Or.inr hc
            · exact Or.inl hc
            · rcases hU (pm.get ⟨pIdx, h⟩) x (Or.inr hm_pool) hx
                (by rw [hlbl, hxl]) with hxs | hxp
              · exact Or.inl (List.mem_append_left _ hxs)
              · by_cases hxm : x = pm.get ⟨pIdx, h⟩
                · exact Or.inl (List.mem_append_right _ (by simp [hxm]))
                · exact absurd ((List.mem_erase_of_ne hxm).mpr hxp) hc
        have hU' : ∀ a b, (a ∈ sub ++ [pm.get ⟨pIdx, h⟩] ∨
              a ∈ pool.erase (pm.get ⟨pIdx, h⟩)) →
            b ∈ nbrsOf a → deci_domi a = deci_domi b →
            b ∈ sub ++ [pm.get ⟨pIdx, h⟩] ∨ b ∈ pool.erase (pm.get ⟨pIdx, h⟩) := by
          intro a b ha hab hlab
          have ha' : a ∈ sub ∨ a ∈ pool := by
            rcases ha with ha' | ha'
            · rcases List.mem_append.mp ha' with h1 | h1
              · exact Or.inl h1
              · rw [List.mem_singleton.mp h1]
                exact Or.inr hm_pool
            · exact Or.inr (List.mem_of_mem_erase ha')
          rcases hU a b ha' hab hlab with hb | hb
          · exact Or.inl (List.mem_append_left _ hb)
          · by_cases hbm : b = pm.get ⟨pIdx, h⟩
            · exact Or.inl (List.mem_append_right _ (by simp [hbm]))
            · exact Or.inr ((List.mem_erase_of_ne hbm).mpr hb)
        obtain ⟨subF, poolF, hrun, hsub_sub, hperm, hlabF, hRF, hclosF⟩ :=
          ih (sub ++ [pm.get ⟨pIdx, h⟩]) (pool.erase (pm.get ⟨pIdx, h⟩))
            (appendMembers (pool.erase (pm.get ⟨pIdx, h⟩)) (sub ++ [pm.get ⟨pIdx, h⟩])
              (pm.erase (pm.get ⟨pIdx, h⟩)) (nbrsOf (pm.get ⟨pIdx, h⟩))) pIdx
            hfuel' hnd' hPMnd' hpm_pool' hpm_adj' hprefix' hsub_lab' hsub_R'
            hclosed' hU'
        refine ⟨subF, poolF, hrun, ?_, hperm.trans hperm_step, hlabF, hRF, hclosF⟩
        intro x hx
        exact hsub_sub x (List.mem_append_left _ hx)
      · rw [if_neg hlbl]
        have hfuel'' : pool.length * pool.length + pool.length +
            (pm.length - (pIdx + 1)) < fuel := by
          generalize pool.length * pool.length = q at hfuel ⊢
          omega
        have hprefix'' : ∀ k (hk : k < pm.length), k < pIdx + 1 →
            deci_domi (pm.get ⟨k, hk⟩) ≠ cd := by
          intro k hk hklt
          rcases Nat.lt_or_ge k pIdx with hcase | hcase
          · exact hprefix k hk hcase
          · have hkp : k = pIdx := by omega
            subst hkp
            exact hlbl
        exact ih sub pool pm (pIdx + 1) hfuel'' hnd hpmnd hpm_pool hpm_adj hprefix''
          hsub_lab hsub_R hclosed hU
    · rw [dif_neg h]
      refine ⟨sub, pool, rfl, fun x hx => hx, List.Perm.refl _, hsub_lab, hsub_R, ?_⟩
      intro y hy x hx hxl
      rcases hclosed y hy x hx hxl with hxs | hxpm
      · exact hxs
      · obtain ⟨⟨k, hk⟩, hkx⟩ := List.mem_iff_get.mp hxpm
        exact absurd (hkx ▸ hprefix k hk (by omega)) (by
          intro hcon
          exact hcon hxl)

/-- The outer subgroup loop: on a duplicate-free pool that is closed under
same-decision adjacency, it succeeds and produces subgroups whose
concatenation is a permutation of the pool, each subgroup being exactly a
connected component of the same-decision subgraph (phrased through the
neighbor lists). -/
theorem subgroupsAux_spec (deci_domi : ℕ → ℕ) (nbrsOf : ℕ → List ℕ)
    (hnsym : ∀ a b, a ∈ nbrsOf b ↔ b ∈ nbrsOf a)
    (hirr : ∀ a, a ∉ nbrsOf a)
    (hnbrnd : ∀ a, (nbrsOf a).Nodup) :
    ∀ (fuel : ℕ) (pool : List ℕ),
    pool.length < fuel →
    pool.Nodup →
    (∀ a ∈ pool, ∀ b ∈ nbrsOf a, deci_domi a = deci_domi b → b ∈ pool) →
    ∃ subs, subgroupsAux deci_domi nbrsOf fuel pool = some subs ∧
      subs.flatten.Perm pool ∧
      ∀ S ∈ subs, ∀ v ∈ S, ∀ x,
        x ∈ S ↔ Relation.ReflTransGen
          (fun a b => b ∈ nbrsOf a ∧ deci_domi a = deci_domi b) v x := by
  intro fuel
  induction fuel with
  | zero =>
    intro pool hfuel
    omega
  | succ fuel ih =>
    intro pool hfuel hnd hUpool
    match pool with
    | [] =>
      exact ⟨[], rfl, by simp, by simp⟩
    | f :: rest =>
      have hlen : (f :: rest).length = rest.length + 1 := rfl
      obtain ⟨subF, poolF, hrun, hfsub, hperm, hlab, hRF, hclos⟩ :=
        searchSub_spec deci_domi nbrsOf (deci_domi f)
          (fun x => Relation.ReflTransGen
            (fun a b => b ∈ nbrsOf a ∧ deci_domi a = deci_domi b) f x ∧
            deci_domi x = deci_domi f)
          (by
            intro x y hx hyx hyl
            exact ⟨hx.1.tail ⟨hyx, by rw [hx.2, hyl]⟩, hyl⟩)
          (innerFuel rest (nbrsOf f)) [f] rest (nbrsOf f) 0
          (by rw [innerFuel]; omega)
          (by
            rw [List.singleton_append]
            exact hnd)
          (hnbrnd f)
          (by
            intro x hx hxl
            have hxpool : x ∈ f :: rest :=
              hUpool f (by simp) x hx hxl.symm
            rcases List.mem_cons.mp hxpool with rfl | hx'
            · exact absurd hx (hirr x)
            · exact hx')
          (fun x hx => ⟨f, by simp, hx⟩)
          (by
            intro k hk hklt
            omega)
          (by
            intro x hx
            rw [List.mem_singleton.mp hx])
          (by
            intro x hx
            rw [List.mem_singleton.mp hx]
            exact ⟨Relation.ReflTransGen.refl, rfl⟩)
          (by
            intro y hy x hx hxl
            rw [List.mem_singleton.mp hy] at hx
            exact Or.inr hx)
          (by
            intro a b ha hab hlab
            have ha' : a ∈ f :: rest := by
              rcases ha with ha' | ha'
              · rw [List.mem_singleton.mp ha']
                simp
              · simp [ha']
            have hb := hUpool a ha' b hab hlab
            rcases List.mem_cons.mp hb with rfl | hb'
            · exact Or.inl (by simp)
            · exact Or.inr hb')
      have hf_subF : f ∈ subF := hfsub f (by simp)
      have hperm' : (subF ++ poolF).Perm (f :: rest) := by
        have : ([f] ++ rest) = f :: rest := rfl
        rw [← this]
        exact hperm
      have hndF : (subF ++ poolF).Nodup := hperm'.nodup_iff.mpr hnd
      have hdisj : ∀ x ∈ subF, x ∉ poolF := by
        intro x hxs hxp
        exact (((List.nodup_append).mp hndF).2.2) hxs hxp
      have hpoolF_nd : poolF.Nodup := ((List.nodup_append).mp hndF).2.1
      have hsubF_pos : 0 < subF.length :=
        List.length_pos.mpr (List.ne_nil_of_mem hf_subF)
      have hlenF : subF.length + poolF.length = rest.length + 1 := by
        have := hperm'.length_eq
        rw [List.length_append] at this
        rw [this]
        rfl
      have hUpoolF : ∀ a ∈ poolF, ∀ b ∈ nbrsOf a, deci_domi a = deci_domi b →
          b ∈ poolF := by
        intro a ha b hab hlab2
        have hapool : a ∈ f :: rest := hperm'.mem_iff.mp (List.mem_append_right _ ha)
        have hbpool : b ∈ f :: rest := hUpool a hapool b hab hlab2
        have hb2 : b ∈ subF ++ poolF := hperm'.mem_iff.mpr hbpool
        rcases List.mem_append.mp hb2 with hbs | hbp
        · exfalso
          have halab : deci_domi a = deci_domi f := hlab2.trans (hlab b hbs)
          exact hdisj a (hclos b hbs a ((hnsym a b).mpr hab) halab) ha
        · exact hbp
      obtain ⟨subs', hrun', hperm'', hcomp'⟩ := ih poolF (by omega) hpoolF_nd hUpoolF
      refine ⟨subF :: subs', ?_, ?_, ?_⟩
      · rw [subgroupsAux, hrun]
        simp only []
        rw [hrun']
      · rw [List.flatten_cons]
        exact (List.Perm.append_left subF hperm'').trans hperm'
      · intro S hS v hv x
        rcases List.mem_cons.mp hS with rfl | hS'
        · constructor
          · intro hx
            have hvf := (hRF v hv).1
            have hxf := (hRF x hx).1
            have hsymm : Symmetric
                (fun a b => b ∈ nbrsOf a ∧ deci_domi a = deci_domi b) := by
              intro a b hab
              exact ⟨(hnsym a b).mpr hab.1, hab.2.symm⟩
            exact ((Relation.ReflTransGen.symmetric hsymm) hvf).trans hxf
          · intro hreach
            induction hreach with
            | refl => exact hv
            | tail hprev hstep ihr =>
              exact hclos _ ihr _ hstep.1 ((hstep.2).symm.trans (hlab _ ihr))
        · exact hcomp' S hS' v hv x

theorem mem_connectionList (N : ℕ) (adj : ℕ → ℕ → Bool) (a b : ℕ) :
    b ∈ connectionList N adj a ↔ (b < N ∧ adj a b = true) := by
  simp [connectionList, List.mem_filter, List.mem_range]

/-! ## Claim C2: the subgroups partition the node set -/

/-- Claim C2: for every symmetric, irreflexive, in-range adjacency and every
labeling, the subgroup detector succeeds and the returned subgroups form a
partition of `0..N-1`: their concatenation is a permutation of `range N`
(every node exactly once), hence the subgroups are pairwise disjoint and each
duplicate-free. -/
theorem subgroups_partition (N : ℕ) (adj : ℕ → ℕ → Bool) (deci_domi : ℕ → ℕ)
    (hsym : ∀ a b, adj a b = adj b a)
    (hirr : ∀ a, adj a a = false)
    (hbnd : ∀ a b, adj a b = true → a < N ∧ b < N) :
    ∃ subs, findSubgroups N adj deci_domi = some subs ∧
      subs.flatten.Perm (List.range N) ∧
      (∀ S ∈ subs, S.Nodup) ∧
      List.Pairwise List.Disjoint subs := by
  obtain ⟨subs, hrun, hperm, _⟩ := subgroupsAux_spec deci_domi (connectionList N adj)
    (by
      intro a b
      rw [mem_connectionList, mem_connectionList]
      constructor
      · intro ⟨h1, h2⟩
        have h3 : adj a b = true := by rw [hsym a b]; exact h2
        exact ⟨(hbnd a b h3).2, h3⟩
      · intro ⟨h1, h2⟩
        have h3 : adj b a = true := by rw [hsym b a]; exact h2
        exact ⟨(hbnd b a h3).2, h3⟩)
    (by
      intro a ha
      rw [mem_connectionList] at ha
      rw [hirr a] at ha
      exact absurd ha.2 (by simp))
    (fun a => (List.nodup_range N).filter _)
    (N + 1) (List.range N) (by simp) (List.nodup_range N)
    (by
      intro a _ b hb _
      exact List.mem_range.mpr ((mem_connectionList N adj a b).mp hb).1)
  have hjoin_nd : subs.flatten.Nodup := hperm.nodup_iff.mpr (List.nodup_range N)
  obtain ⟨hnodups, hdisj⟩ := List.nodup_flatten.mp hjoin_nd
  exact ⟨subs, by rw [findSubgroups]; exact hrun, hperm, hnodups, hdisj⟩

/-- Witness for C2 on the 3-node path with labels `[0, 0, 1]`. -/
theorem subgroups_partition_witness :
    ∃ subs, findSubgroups 3 pathAdj3 pathLabel3 = some subs ∧
      subs.flatten.Perm (List.range 3) ∧
      (∀ S ∈ subs, S.Nodup) ∧
      List.Pairwise List.Disjoint subs :=
  subgroups_partition 3 pathAdj3 pathLabel3
    (by
      intro a b
      rcases a with _ | _ | _ | a <;> rcases b with _ | _ | _ | b <;> rfl)
    (by
      intro a
      rcases a with _ | _ | _ | a <;> rfl)
    (by
      intro a b h
      rcases a with _ | _ | _ | a <;> rcases b with _ | _ | _ | b <;>
        first
          | exact ⟨by omega, by omega⟩
          | exact Bool.noConfusion h)

/-! ## Claim C3: subgroups are the same-label connected components -/

/-- Claim C3: every subgroup the detector returns equals, for each of its
members `v`, the set of nodes reachable from `v` in the subgraph restricted to
edges whose two endpoints carry the same dominant decision — i.e. the maximal
same-label connected component of `v`, which is exactly what a breadth-first
traversal of the same-label induced subgraph computes. -/
theorem subgroups_are_components (N : ℕ) (adj : ℕ → ℕ → Bool) (deci_domi : ℕ → ℕ)
    (hsym : ∀ a b, adj a b = adj b a)
    (hirr : ∀ a, adj a a = false)
    (hbnd : ∀ a b, adj a b = true → a < N ∧ b < N) :
    ∀ subs, findSubgroups N adj deci_domi = some subs →
    ∀ S ∈ subs, ∀ v ∈ S, ∀ x,
      x ∈ S ↔ Relation.ReflTransGen (sameDeciAdj adj deci_domi) v x := by
  obtain ⟨subs₀, hrun₀, _, hcomp⟩ := subgroupsAux_spec deci_domi (connectionList N adj)
    (by
      intro a b
      rw [mem_connectionList, mem_connectionList]
      constructor
      · intro ⟨h1, h2⟩
        have h3 : adj a b = true := by rw [hsym a b]; exact h2
        exact ⟨(hbnd a b h3).2, h3⟩
      · intro ⟨h1, h2⟩
        have h3 : adj b a = true := by rw [hsym b a]; exact h2
        exact ⟨(hbnd b a h3).2, h3⟩)
    (by
      intro a ha
      rw [mem_connectionList] at ha
      rw [hirr a] at ha
      exact absurd ha.2 (by simp))
    (fun a => (List.nodup_range N).filter _)
    (N + 1) (List.range N) (by simp) (List.nodup_range N)
    (by
      intro a _ b hb _
      exact List.mem_range.mpr ((mem_connectionList N adj a b).mp hb).1)
  intro subs hsubs
  rw [findSubgroups] at hsubs
  obtain rfl := Option.some_inj.mp (hrun₀.symm.trans hsubs)
  intro S hS v hv x
  rw [hcomp S hS v hv x]
  constructor
  · intro h
    refine Relation.ReflTransGen.mono ?_ h
    intro a b hab
    exact ⟨((mem_connectionList N adj a b).mp hab.1).2, hab.2⟩
  · intro h
    refine Relation.ReflTransGen.mono ?_ h
    intro a b hab
    exact ⟨(mem_connectionList N adj a b).mpr ⟨(hbnd a b hab.1).2, hab.1⟩, hab.2⟩

/-- Witness for C3: on the 3-node path with labels `[0, 0, 1]` the detector
returns `[[0, 1], [2]]`, and membership of node 1 in node 0's subgroup
coincides with same-label reachability from 0. -/
theorem subgroups_are_components_witness :
    (1 ∈ [0, 1]) ↔ Relation.ReflTransGen (sameDeciAdj pathAdj3 pathLabel3) 0 1 := by
  have h := subgroups_are_components 3 pathAdj3 pathLabel3
    (by
      intro a b
      rcases a with _ | _ | _ | a <;> rcases b with _ | _ | _ | b <;> rfl)
    (by
      intro a
      rcases a with _ | _ | _ | a <;> rfl)
    (by
      intro a b hab
      rcases a with _ | _ | _ | a <;> rcases b with _ | _ | _ | b <;>
        first
          | exact ⟨by omega, by omega⟩
          | exact Bool.noConfusion hab)
    [[0, 1], [2]] (by decide)
  exact h [0, 1] (by simp) 0 (by simp) 1

end ProbConv
